import Mathlib

/-!
Verification development for the starlink-sim topology/routing/statistics
engine (`src/starlink-sim.cc`).

The C++ source is shallowly embedded:
* doubles are modelled as `ℚ` (with `WithTop ℚ` where the code relies on
  `std::numeric_limits<double>::infinity()`),
* the machine integers (`uint32_t`, `uint64_t`, `int`) are modelled as `ℕ`/`ℤ`
  (`int prev` keeps its `-1` sentinel as a genuine `ℤ` value),
* `std::vector` indexed by node id is modelled as a function out of `ℕ`,
* CSV parsing (excluded by the specification) is abstracted: an input file is
  an `Option (List (Option row))`, `none` standing for an unreadable file and
  a `none` row standing for a row whose parse throws (`catch ... continue`),
* the `while (!pq.empty())` Dijkstra loop is embedded with an explicit fuel
  parameter; the chosen fuel is proved sufficient (the queue is proved empty
  at the end), so the embedding computes the same fixpoint as the C++ loop.
-/

namespace StarlinkSim

/-- Extended distances: `double` values including `infinity` (line 128). -/
abbrev EDist := WithTop ℚ

/-- Model of `Ipv4Address`. -/
abbrev Addr := ℕ

/-- `struct LinkParam` (lines 28-37). -/
structure LinkParam where
  srcId : ℕ
  dstId : ℕ
  srcName : String
  dstName : String
  delayMs : ℚ
  dataRateBps : ℕ
  packetLossRate : ℚ
  distanceKm : ℚ
deriving DecidableEq, Repr

/-- `struct TrafficDemand` (lines 39-48). -/
structure TrafficDemand where
  demandId : ℕ
  srcNode : String
  dstNode : String
  srcId : ℕ
  dstId : ℕ
  dataRateMbps : ℚ
  startTimeSec : ℚ
  durationSec : ℚ
deriving DecidableEq, Repr

/-- The two coercions applied to an accepted link row
(`if (p.delayMs <= 0) p.delayMs = 1.0; if (p.dataRateBps < 1000) p.dataRateBps = 1000000;`,
lines 173-174). -/
def coerceLink (p : LinkParam) : LinkParam :=
  { p with
    delayMs := if p.delayMs ≤ 0 then 1 else p.delayMs,
    dataRateBps := if p.dataRateBps < 1000 then 1000000 else p.dataRateBps }

/-- `g_numNodes` after the `LoadLinks` loop: for each accepted link,
`m = max(srcId, dstId) + 1; if (m > g_numNodes) g_numNodes = m;` (lines 177-178). -/
def numNodesOf (links : List LinkParam) : ℕ :=
  links.foldl (fun n l => max n (max l.srcId l.dstId + 1)) 0

/-- `g_adjList` built after the loop (lines 182-186): for each link, the entry
`(dstId, delayMs)` is appended to `adjList[srcId]` and `(srcId, delayMs)` to
`adjList[dstId]`.  The vector of vectors is modelled as a function of the
node id. -/
def buildAdjList (links : List LinkParam) : ℕ → List (ℕ × ℚ) := fun u =>
  links.foldl
    (fun acc l =>
      let acc1 := if l.srcId = u then acc ++ [(l.dstId, l.delayMs)] else acc
      if l.dstId = u then acc1 ++ [(l.srcId, l.delayMs)] else acc1)
    []

/-- The list of links accepted by the `LoadLinks` row loop (lines 161-180):
rows that parse are coerced and appended, rows whose parse throws are skipped. -/
def loadLinksList (rows : List (Option LinkParam)) : List LinkParam :=
  rows.filterMap (fun r => r.map coerceLink)

/-- Result of `LoadLinks` (lines 157-189): the returned `bool` together with
the global state it fills in (`g_links`, `g_numNodes`, `g_adjList`). -/
structure LoadLinksOut where
  ok : Bool
  links : List LinkParam
  numNodes : ℕ
  adjList : ℕ → List (ℕ × ℚ)

/-- `LoadLinks` (lines 157-189).  The input is `none` when the file cannot be
opened (line 159, returns `false`); otherwise the rows are processed, the
adjacency list is built and `!g_links.empty()` is returned (line 188). -/
def LoadLinks (fileRows : Option (List (Option LinkParam))) : LoadLinksOut :=
  match fileRows with
  | none => ⟨false, [], 0, fun _ => []⟩
  | some rows =>
    let links := loadLinksList rows
    ⟨!links.isEmpty, links, numNodesOf links, buildAdjList links⟩

/-- `LoadDemands` (lines 191-213): accepted rows in order; returns
`!g_demands.empty()` (line 212), `false` if the file cannot be opened. -/
def LoadDemands (fileRows : Option (List (Option TrafficDemand))) :
    Bool × List TrafficDemand :=
  match fileRows with
  | none => (false, [])
  | some rows =>
    let demands := rows.filterMap id
    (!demands.isEmpty, demands)

/-- `main` aborts (returns 1) when either load reports failure
(lines 287-288). -/
def mainLoadAborts (linkRows : Option (List (Option LinkParam)))
    (demandRows : Option (List (Option TrafficDemand))) : Bool :=
  !(LoadLinks linkRows).ok || !(LoadDemands demandRows).1

/-! ## Statistics (SaveResults, SaveLinkStats) -/

/-- The raw per-flow counters handed over by the external engine's
`FlowMonitor`.  `ns3::Time` values are integer nanoseconds; the cumulative
delay and jitter sums are therefore modelled as nanosecond counts, the two
timestamps are read through `GetSeconds()` and modelled as rationals. -/
structure FlowStats where
  txPackets : ℕ
  rxPackets : ℕ
  rxBytes : ℕ
  timeFirstTxSec : ℚ
  timeLastRxSec : ℚ
  delaySumNs : ℕ
  jitterSumNs : ℕ
deriving DecidableEq, Repr

/-- `ns3::Time::GetMilliSeconds()` on a non-negative time: integer division of
the nanosecond count by 10^6 (truncation). -/
def getMilliSeconds (ns : ℕ) : ℕ := ns / 1000000

/-- One output row of `SaveResults` (numeric part, lines 232-240). -/
structure FlowRow where
  txPackets : ℕ
  rxPackets : ℕ
  lost : ℕ
  tp : ℚ
  dl : ℚ
  jt : ℚ
  pl : ℚ
deriving DecidableEq, Repr

/-- The per-flow computation of `SaveResults` (lines 232-240).
`lost = (tx > rx) ? tx - rx : 0`; `pl = lost/tx` when `tx > 0`;
inside `if (rx > 0)`: `tp = rxBytes*8/dur/1e6` when `dur > 0`, and
`dl`/`jt` are the C++ integer divisions
`delaySum.GetMilliSeconds() / rxPackets` (the quotient is integral before it
is stored into the `double`). -/
def FlowRowOf (s : FlowStats) : FlowRow :=
  let lost : ℕ := if s.rxPackets < s.txPackets then s.txPackets - s.rxPackets else 0
  let pl : ℚ := if 0 < s.txPackets then (lost : ℚ) / (s.txPackets : ℚ) else 0
  let dur : ℚ := s.timeLastRxSec - s.timeFirstTxSec
  let tp : ℚ :=
    if 0 < s.rxPackets then
      (if 0 < dur then (s.rxBytes : ℚ) * 8 / dur / 1000000 else 0)
    else 0
  let dl : ℚ :=
    if 0 < s.rxPackets then ((getMilliSeconds s.delaySumNs / s.rxPackets : ℕ) : ℚ) else 0
  let jt : ℚ :=
    if 0 < s.rxPackets then ((getMilliSeconds s.jitterSumNs / s.rxPackets : ℕ) : ℚ) else 0
  ⟨s.txPackets, s.rxPackets, lost, tp, dl, jt, pl⟩

/-- The per-link computation of `SaveLinkStats` (lines 252-259):
`lost = (tx >= rx) ? tx - rx : 0`; `plr = (tx > 0) ? lost/tx : 0`. -/
def LinkRowOf (tx rx : ℕ) : ℕ × ℚ :=
  let lost : ℕ := if rx ≤ tx then tx - rx else 0
  let plr : ℚ := if 0 < tx then (lost : ℚ) / (tx : ℚ) else 0
  (lost, plr)

/-! ## Dijkstra (lines 119-153) -/

/-- `struct DijkstraResult` (lines 121-124): `vector<double> dist` and
`vector<int> prev`, modelled as functions of the node id (`prev` keeps the
C++ `int` type with its `-1` sentinel). -/
structure DijkstraResult where
  dist : ℕ → EDist
  prev : ℕ → ℤ
deriving Inhabited

/-- The full loop state: the result vectors together with the priority queue
of `(double, uint32_t)` pairs. -/
structure DState where
  dist : ℕ → EDist
  prev : ℕ → ℤ
  pq : List (EDist × ℕ)

/-- The result part of a loop state. -/
def DState.result (s : DState) : DijkstraResult := ⟨s.dist, s.prev⟩

/-- `std::priority_queue<pair, vector, greater<pair>>::top()`: the
lexicographically least pair currently in the queue (`none` iff empty).
The fold keeps the first-encountered least pair; pairs equal in value are
indistinguishable, so which physical heap element is returned is immaterial. -/
def pqTop : List (EDist × ℕ) → Option (EDist × ℕ)
  | [] => none
  | x :: xs =>
    some (xs.foldl (fun m y => if m.1 < y.1 ∨ (m.1 = y.1 ∧ m.2 ≤ y.2) then m else y) x)

/-- One relaxation of the edge `e = (v, w)` out of `u` (lines 137-141):
`if (dist[u] + w < dist[v]) { dist[v] = dist[u] + w; prev[v] = u;
pq.push({dist[v], v}); }`. -/
def relaxStep (u : ℕ) (s : DState) (e : ℕ × ℚ) : DState :=
  if s.dist u + (e.2 : EDist) < s.dist e.1 then
    { dist := Function.update s.dist e.1 (s.dist u + (e.2 : EDist)),
      prev := Function.update s.prev e.1 (u : ℤ),
      pq := s.pq ++ [(s.dist u + (e.2 : EDist), e.1)] }
  else s

/-- The inner `for (auto& [v, w] : g_adjList[u])` loop (lines 136-142). -/
def relaxEdges (u : ℕ) (s : DState) (es : List (ℕ × ℚ)) : DState :=
  es.foldl (relaxStep u) s

/-- The `while (!pq.empty())` loop (lines 133-143), embedded with fuel: pop
the least pair, skip it if stale (`d > dist[u]`), otherwise relax all edges
out of `u`.  `dijkstraLoop_pq_empties` below proves that the fuel passed by
`Dijkstra` always suffices, so the embedding reaches the same final state as
the unbounded C++ loop. -/
def dijkstraLoop (adj : ℕ → List (ℕ × ℚ)) : ℕ → DState → DState
  | 0, s => s
  | fuel + 1, s =>
    match pqTop s.pq with
    | none => s
    | some du =>
      let s1 : DState := { s with pq := s.pq.erase du }
      if du.1 > s1.dist du.2 then dijkstraLoop adj fuel s1
      else dijkstraLoop adj fuel (relaxEdges du.2 s1 (adj du.2))

/-- Total number of adjacency entries of nodes `0..n-1` (an upper bound on
the number of pushes the loop can perform, proved below). -/
def degreeSum (adj : ℕ → List (ℕ × ℚ)) (n : ℕ) : ℕ :=
  (Finset.range n).sum fun u => (adj u).length

/-- The initial state of `Dijkstra` (lines 127-132): `dist` everywhere
infinite except `dist[src] = 0`, `prev` everywhere `-1`, queue `{(0, src)}`. -/
def dijkstraInit (src : ℕ) : DState :=
  { dist := fun v => if v = src then (0 : EDist) else ⊤,
    prev := fun _ => -1,
    pq := [((0 : EDist), src)] }

/-- `Dijkstra(src, numNodes)` (lines 126-145).  The fuel `2 + degreeSum`
bounds the number of loop iterations (each accepted pop either empties part
of the queue or permanently finishes a node; see the potential argument in
the proofs below). -/
def Dijkstra (src numNodes : ℕ) (adj : ℕ → List (ℕ × ℚ)) : DijkstraResult :=
  (dijkstraLoop adj (2 + degreeSum adj numNodes) (dijkstraInit src)).result

/-- The backward walk of `GetPath` (line 150):
`for (int at = dst; at != -1; at = prev[at]) path.push_back(at);` followed by
`reverse` — prepending while walking yields the reversed push order directly.
Embedded with fuel, returning `none` where the C++ loop would diverge on a
cyclic `prev` (proved unreachable for `Dijkstra` results). -/
def getPathWalk (prev : ℕ → ℤ) : ℕ → ℤ → List ℕ → Option (List ℕ)
  | 0, _, _ => none
  | fuel + 1, at0, acc =>
    if at0 = -1 then some acc
    else getPathWalk prev fuel (prev at0.toNat) (at0.toNat :: acc)

/-- `GetPath(src, dst, dijkstra)` (lines 147-153).  Returns the empty path if
`dist[dst]` is infinite (line 149); the `src` argument is unused, exactly as
in the source.  The fuel argument is instantiated with `numNodes + 1` at the
call site (sufficient, as proved below). -/
def GetPath (fuel : ℕ) (_src dst : ℕ) (d : DijkstraResult) : Option (List ℕ) :=
  if d.dist dst = ⊤ then some []
  else getPathWalk d.prev fuel (dst : ℤ) []

/-! ## Route installation (main, lines 399-423) -/

/-- The installed static-routing state, observed as a map from
`(node, destination address)` to the `(next hop, output interface)` of the
host route.

Modelled from the spec: `ns3::Ipv4StaticRouting::AddHostRouteTo` itself is
not part of this repository's sources; §4.3 of the specification describes
installation as "a no-op or overwrite, never a conflict" per
`(node, destinationAddress)` pair, which is what the map update below
implements. -/
def RTable := ℕ × Addr → Option (Addr × ℕ)

/-- Modelled from the spec: installing the host route
"packets destined for `dest` leave `node` via interface `ifIndex` toward
`nextHop`" overwrites the entry for the `(node, dest)` pair (§4.3). -/
def AddHostRouteTo (t : RTable) (node : ℕ) (dest : Addr) (nextHop : Addr)
    (ifIndex : ℕ) : RTable :=
  fun k => if k = (node, dest) then some (nextHop, ifIndex) else t k

/-- The per-hop loop of `main` (lines 403-423): for each consecutive pair
`(current, next)` of the path, look up `g_linkInterface`; on failure warn and
`continue`, otherwise `AddHostRouteTo(destAddr, nextHopAddr, ifIndex)` at
`current`.  Returns the updated tables and the list of warned-about pairs. -/
def installHops (linkIf : ℕ × ℕ → Option (ℕ × Addr)) (destAddr : Addr) :
    List ℕ → RTable × List (ℕ × ℕ) → RTable × List (ℕ × ℕ)
  | a :: b :: rest, (t, ws) =>
    match linkIf (a, b) with
    | none => installHops linkIf destAddr (b :: rest) (t, ws ++ [(a, b)])
    | some iv =>
      installHops linkIf destAddr (b :: rest)
        (AddHostRouteTo t a destAddr iv.2 iv.1, ws)
  | _, acc => acc

/-- Route installation for a whole path, starting from tables `t` with no
warnings emitted yet. -/
def InstallPathRoutes (linkIf : ℕ × ℕ → Option (ℕ × Addr)) (destAddr : Addr)
    (path : List ℕ) (t : RTable) : RTable × List (ℕ × ℕ) :=
  installHops linkIf destAddr path (t, [])

/-- `g_linkInterface` after the link-creation loop (lines 349-361): for the
`i`-th link, the key `(srcId, dstId)` maps to the source-side interface and
the address of device 1, and `(dstId, srcId)` to the destination-side
interface and the address of device 0.  The engine-assigned values are
abstracted into `ifVals` (forward and backward value per link index); only
the key set is determined by this repository's code. -/
def buildLinkInterface (ifVals : ℕ → (ℕ × Addr) × (ℕ × Addr))
    (links : List LinkParam) : ℕ × ℕ → Option (ℕ × Addr) :=
  (links.enum).foldl
    (fun m il =>
      Function.update
        (Function.update m (il.2.srcId, il.2.dstId) (some (ifVals il.1).1))
        (il.2.dstId, il.2.srcId) (some (ifVals il.1).2))
    (fun _ => none)

/-! ## The demand loop of `main` (lines 373-443) -/

/-- `GetNodeName` (lines 220-223). -/
def GetNodeName (nodeIdToName : ℕ → Option String) (nodeId : ℕ) : String :=
  match nodeIdToName nodeId with
  | some s => s
  | none => "Node_" ++ toString nodeId

/-- The `PathString` built at lines 389-393: node names joined by arrows. -/
def pathStringOf (nodeIdToName : ℕ → Option String) (path : List ℕ) : String :=
  String.intercalate "->" (path.map (GetNodeName nodeIdToName))

/-- One row of `route_paths.csv` (lines 394-395). -/
structure RouteRow where
  flowId : ℕ
  srcNode : String
  dstNode : String
  hopCount : ℕ
  pathString : String
deriving DecidableEq, Repr

/-- The endpoints requested from the external engine for one demand:
a `PacketSink` at the destination (lines 426-429) and an `OnOff` source at
the origin (lines 431-441). -/
inductive AppEvent where
  | sink (node : ℕ) (port : ℕ) (stopSec : ℚ)
  | onoff (node : ℕ) (destAddr : Addr) (port : ℕ) (rateMbps : ℚ)
      (startSec stopSec : ℚ)
deriving DecidableEq, Repr

/-- The ambient state read by the demand loop: loaded links and the maps
filled in during link setup (`g_nodeFirstIp`, `g_linkInterface`,
`g_nodeIdToName`), plus the configured simulation time. -/
structure SimEnv where
  links : List LinkParam
  nodeFirstIp : ℕ → Option Addr
  linkIf : ℕ × ℕ → Option (ℕ × Addr)
  nodeIdToName : ℕ → Option String
  simTime : ℚ

/-- The mutable state threaded through the demand loop: the route report
rows, the static-routing tables, the interface-lookup warnings, the created
endpoints and the next port number (starting at 9000, line 373). -/
structure SchedState where
  routeRows : List RouteRow
  tables : RTable
  warnings : List (ℕ × ℕ)
  apps : List AppEvent
  port : ℕ

/-- One iteration of the demand loop (lines 376-443): skip if the
destination has no recorded first address (line 380); run `Dijkstra` and
`GetPath`; skip if the path is empty or shorter than two nodes (line 386);
otherwise record the route row, install the per-hop routes and create the
sink and on/off endpoints, then increment the port. -/
def processDemand (env : SimEnv) (st : SchedState) (d : TrafficDemand) :
    SchedState :=
  match env.nodeFirstIp d.dstId with
  | none => st
  | some destAddr =>
    let n := numNodesOf env.links
    let dij := Dijkstra d.srcId n (buildAdjList env.links)
    match GetPath (n + 1) d.srcId d.dstId dij with
    | none => st
    | some path =>
      if path = [] ∨ path.length < 2 then st
      else
        let inst := InstallPathRoutes env.linkIf destAddr path st.tables
        { routeRows := st.routeRows ++
            [⟨d.demandId + 1, d.srcNode, d.dstNode, path.length - 1,
              pathStringOf env.nodeIdToName path⟩],
          tables := inst.1,
          warnings := st.warnings ++ inst.2,
          apps := st.apps ++
            [AppEvent.sink d.dstId st.port env.simTime,
             AppEvent.onoff d.srcId destAddr st.port d.dataRateMbps
               d.startTimeSec (d.startTimeSec + d.durationSec)],
          port := st.port + 1 }

/-- The whole demand loop, in input order. -/
def processDemands (env : SimEnv) (st : SchedState)
    (ds : List TrafficDemand) : SchedState :=
  ds.foldl (processDemand env) st

/-! ## Paths in the loaded topology -/

/-- A node sequence that follows adjacency-list edges, together with the sum
of the traversed edge weights. -/
inductive ListCost (adj : ℕ → List (ℕ × ℚ)) : List ℕ → ℚ → Prop
  | single (u : ℕ) : ListCost adj [u] 0
  | cons {u v : ℕ} {w c : ℚ} {rest : List ℕ} :
      (v, w) ∈ adj u → ListCost adj (v :: rest) c →
      ListCost adj (u :: v :: rest) (w + c)

/-- `(a, b)` is a directed traversal of some loaded link. -/
def IsLinkEdge (links : List LinkParam) (a b : ℕ) : Prop :=
  ∃ l ∈ links, (l.srcId = a ∧ l.dstId = b) ∨ (l.srcId = b ∧ l.dstId = a)

/-! ## Invariants of the Dijkstra loop (proof infrastructure) -/

/-- Well-formedness of the adjacency list: every edge target is a valid node
id and every edge weight is positive (which `buildAdjList` guarantees for
loaded links, whose delays are coerced to be positive). -/
def AdjOK (adj : ℕ → List (ℕ × ℚ)) (n : ℕ) : Prop :=
  ∀ u, ∀ vw ∈ adj u, vw.1 < n ∧ 0 < vw.2

/-- The inductive invariant of the `while` loop of `Dijkstra`. -/
structure DInv (adj : ℕ → List (ℕ × ℚ)) (n src : ℕ) (s : DState) : Prop where
  pq_node : ∀ p ∈ s.pq, p.2 < n
  pq_key : ∀ p ∈ s.pq, s.dist p.2 ≤ p.1 ∧ p.1 ≠ ⊤
  nonneg : ∀ v, 0 ≤ s.dist v
  src_zero : s.dist src = 0
  fin_node : ∀ v, s.dist v ≠ ⊤ → v < n
  prev_edge : ∀ v, s.prev v ≠ -1 →
    ∃ (u : ℕ) (w : ℚ), s.prev v = (u : ℤ) ∧ (v, w) ∈ adj u ∧ 0 < w ∧
      s.dist u + (w : EDist) ≤ s.dist v ∧ s.dist v ≠ ⊤
  fin_prev : ∀ v, s.dist v ≠ ⊤ → v = src ∨ s.prev v ≠ -1
  open_closed : ∀ u, (∃ p ∈ s.pq, p.2 = u ∧ p.1 = s.dist u) ∨
    ∀ vw ∈ adj u, s.dist vw.1 ≤ s.dist u + (vw.2 : EDist)

/-- A node is finished: its distance is final (it is below every queued key)
and all its outgoing edges are relaxed.  Such nodes never push again. -/
abbrev GoodNode (adj : ℕ → List (ℕ × ℚ)) (s : DState) (u : ℕ) : Prop :=
  s.dist u ≠ ⊤ ∧ (∀ p ∈ s.pq, s.dist u ≤ p.1) ∧
    ∀ vw ∈ adj u, s.dist vw.1 ≤ s.dist u + (vw.2 : EDist)

/-- The loop variant: queue length plus the total degree of unfinished
nodes.  Every loop iteration strictly decreases it. -/
def PhiMeasure (adj : ℕ → List (ℕ × ℚ)) (n : ℕ) (s : DState) : ℕ :=
  s.pq.length +
    ((Finset.range n).filter (fun u => ¬ GoodNode adj s u)).sum
      (fun u => (adj u).length)

/-- The number of valid nodes strictly closer than `v`; strictly decreases
along the predecessor chain, which bounds the chain's length. -/
def rankOf (n : ℕ) (dist : ℕ → EDist) (v : ℕ) : ℕ :=
  ((Finset.range n).filter (fun x => dist x < dist v)).card

/-! ## Concrete inputs used by the witnesses -/

/-- A raw link row with delay `-5` ms and rate `500` bps (both below the
floors). -/
def rawLinkEx : LinkParam := ⟨0, 1, "A", "B", -5, 500, 0, 0⟩

/-- A small well-formed link list: a line `A - B - C`. -/
def linksEx : List LinkParam :=
  [⟨0, 1, "A", "B", 2, 1000000, 0, 0⟩, ⟨1, 2, "B", "C", 3, 1000000, 0, 0⟩]

/-- A parsed traffic-demand row. -/
def demandEx : TrafficDemand := ⟨0, "A", "C", 0, 2, 5, 1, 8⟩

/-- Flow counters exhibiting the integer-division behaviour of the mean
delay: 3 ms of cumulative delay over 2 received packets. -/
def fsDelayEx : FlowStats := ⟨2, 2, 1000, 0, 1, 3000000, 0⟩

/-- Flow counters of the specification's throughput example:
125000 bytes received over exactly one second. -/
def fsTpEx : FlowStats := ⟨1, 1, 125000, 0, 1, 0, 0⟩

/-- An interface map for the witness of the route installer: the hop
`(1, 2)` has no entry. -/
def linkIfEx : ℕ × ℕ → Option (ℕ × Addr) := fun ab =>
  if ab = (0, 1) then some (5, 100) else if ab = (2, 3) then some (7, 101) else none

/-- An empty environment whose destination lookup always fails. -/
def envEx : SimEnv := ⟨[], fun _ => none, fun _ => none, fun _ => none, 10⟩

/-- An initial scheduler state. -/
def stEx : SchedState := ⟨[], fun _ => none, [], [], 9000⟩

/-! ## C5: loader coercions -/

/-- C5: every link row accepted by the loader is stored with delay > 0 and
data rate at least the 1000 bps floor; a raw delay ≤ 0 is stored as 1.0 ms
and a raw rate < 1000 bps is stored as 1,000,000 bps; in particular a raw
delay of −5 is stored as 1.0 and a raw rate of 500 as 1,000,000. -/
theorem loadLinks_coercions (rows : List (Option LinkParam)) :
    (∀ p ∈ loadLinksList rows, 0 < p.delayMs ∧ 1000 ≤ p.dataRateBps) ∧
    (∀ raw : LinkParam, some raw ∈ rows → coerceLink raw ∈ loadLinksList rows) ∧
    (∀ raw : LinkParam,
      (raw.delayMs ≤ 0 → (coerceLink raw).delayMs = 1) ∧
      (raw.dataRateBps < 1000 → (coerceLink raw).dataRateBps = 1000000)) ∧
    (∀ raw : LinkParam, raw.delayMs = -5 → (coerceLink raw).delayMs = 1) ∧
    (∀ raw : LinkParam, raw.dataRateBps = 500 →
      (coerceLink raw).dataRateBps = 1000000) := by
  refine ⟨?_, ?_, ?_, ?_, ?_⟩
  · intro p hp
    simp only [loadLinksList, List.mem_filterMap] at hp
    obtain ⟨r, _, hr⟩ := hp
    cases r with
    | none => simp at hr
    | some raw =>
      simp only [Option.map_some'] at hr
      cases hr
      constructor
      · simp only [coerceLink]
        split
        · norm_num
        · linarith [lt_of_not_ge (by assumption : ¬ raw.delayMs ≤ 0)]
      · simp only [coerceLink]
        split
        · norm_num
        · omega
  · intro raw hmem
    simp only [loadLinksList, List.mem_filterMap]
    exact ⟨some raw, hmem, rfl⟩
  · intro raw
    constructor
    · intro h; simp [coerceLink, h]
    · intro h; simp [coerceLink, h]
  · intro raw h
    simp [coerceLink, h]
  · intro raw h
    simp [coerceLink, h]

/-- Witness for C5 at the concrete row `rawLinkEx` (delay −5, rate 500)
inside a file with a malformed row. -/
theorem loadLinks_coercions_witness :
    some rawLinkEx ∈ [some rawLinkEx, (none : Option LinkParam)] ∧
    rawLinkEx.delayMs ≤ 0 ∧ rawLinkEx.dataRateBps < 1000 ∧
    coerceLink rawLinkEx ∈ loadLinksList [some rawLinkEx, none] ∧
    (coerceLink rawLinkEx).delayMs = 1 ∧
    (coerceLink rawLinkEx).dataRateBps = 1000000 := by
  refine ⟨by decide, by decide, by decide, ?_, ?_, ?_⟩
  · exact (loadLinks_coercions [some rawLinkEx, none]).2.1 rawLinkEx (by decide)
  · exact (loadLinks_coercions [some rawLinkEx, none]).2.2.1 rawLinkEx |>.1 (by decide)
  · exact (loadLinks_coercions [some rawLinkEx, none]).2.2.1 rawLinkEx |>.2 (by decide)

/-! ## C6: loss counters and loss rates -/

/-- C6: in both the per-link and the per-flow report, the lost-packet count
is `max(tx − rx, 0)` and the loss rate is `lost/tx`, with rate 0 when
`tx = 0`; for tx=100, rx=80 this gives lost=20 and rate 0.2. -/
theorem stats_loss_rates :
    (∀ tx rx : ℕ,
      ((LinkRowOf tx rx).1 : ℤ) = max ((tx : ℤ) - (rx : ℤ)) 0 ∧
      (LinkRowOf tx rx).2 =
        (if tx = 0 then 0 else ((LinkRowOf tx rx).1 : ℚ) / (tx : ℚ))) ∧
    (∀ s : FlowStats,
      ((FlowRowOf s).lost : ℤ) = max ((s.txPackets : ℤ) - (s.rxPackets : ℤ)) 0 ∧
      (FlowRowOf s).pl =
        (if s.txPackets = 0 then 0
         else ((FlowRowOf s).lost : ℚ) / (s.txPackets : ℚ))) ∧
    (LinkRowOf 100 80).1 = 20 ∧ (LinkRowOf 100 80).2 = 1 / 5 ∧
    (LinkRowOf 0 0).2 = 0 := by
  refine ⟨?_, ?_, ?_, ?_, ?_⟩
  · intro tx rx
    constructor
    · simp only [LinkRowOf]
      split <;> push_cast <;> omega
    · simp only [LinkRowOf]
      rcases Nat.eq_zero_or_pos tx with h | h
      · simp [h]
      · simp [h, Nat.pos_iff_ne_zero.mp h]
  · intro s
    constructor
    · simp only [FlowRowOf]
      split <;> push_cast <;> omega
    · simp only [FlowRowOf]
      rcases Nat.eq_zero_or_pos s.txPackets with h | h
      · simp [h]
      · simp [h, Nat.pos_iff_ne_zero.mp h]
  · norm_num [LinkRowOf]
  · norm_num [LinkRowOf]
  · norm_num [LinkRowOf]

/-! ## C7: throughput and mean delay/jitter -/

/-- Counterexample to C7 as stated: with 3 ms of cumulative delay over 2
received packets the report prints a mean delay of 1 ms (C++ integer
division), while the cumulative sum divided by the packet count is 1.5 ms. -/
theorem flow_mean_delay_counterexample :
    (FlowRowOf fsDelayEx).dl = 1 ∧
    ((fsDelayEx.delaySumNs : ℚ) / 1000000) / (fsDelayEx.rxPackets : ℚ) = 3 / 2 ∧
    (1 : ℚ) ≠ 3 / 2 := by
  refine ⟨?_, by norm_num [fsDelayEx], by norm_num⟩
  norm_num [FlowRowOf, fsDelayEx, getMilliSeconds]

/-- C7 (amended): throughput is `rxBytes·8/(lastRx − firstTx)/1e6`, reported
as 0 when `rx = 0` or the duration is ≤ 0 (so 125000 bytes over one second
give 1.0 Mbps); the mean delay and mean jitter are the cumulative sums
truncated to whole milliseconds and then integer-divided by the rx packet
count (the floor of the quotient, fractional part discarded), reported as 0
when `rx = 0`. -/
theorem flow_row_formulas (s : FlowStats) :
    ((FlowRowOf s).tp =
      if 0 < s.rxPackets ∧ 0 < s.timeLastRxSec - s.timeFirstTxSec then
        (s.rxBytes : ℚ) * 8 / (s.timeLastRxSec - s.timeFirstTxSec) / 1000000
      else 0) ∧
    ((FlowRowOf s).dl =
      if s.rxPackets = 0 then 0
      else (⌊(getMilliSeconds s.delaySumNs : ℚ) / (s.rxPackets : ℚ)⌋₊ : ℚ)) ∧
    ((FlowRowOf s).jt =
      if s.rxPackets = 0 then 0
      else (⌊(getMilliSeconds s.jitterSumNs : ℚ) / (s.rxPackets : ℚ)⌋₊ : ℚ)) ∧
    (FlowRowOf fsTpEx).tp = 1 := by
  have hfloor : ∀ a b : ℕ, ((a / b : ℕ) : ℚ) = (⌊(a : ℚ) / (b : ℚ)⌋₊ : ℚ) := by
    intro a b
    rw [Nat.floor_div_nat (a : ℚ) b, Nat.floor_natCast]
  refine ⟨?_, ?_, ?_, ?_⟩
  · simp only [FlowRowOf]
    rcases Nat.eq_zero_or_pos s.rxPackets with h | h
    · simp [h]
    · by_cases hd : 0 < s.timeLastRxSec - s.timeFirstTxSec
      · simp [h, hd]
      · simp [h, hd]
  · simp only [FlowRowOf]
    rcases Nat.eq_zero_or_pos s.rxPackets with h | h
    · simp [h]
    · simp [h, Nat.pos_iff_ne_zero.mp h, hfloor]
  · simp only [FlowRowOf]
    rcases Nat.eq_zero_or_pos s.rxPackets with h | h
    · simp [h]
    · simp [h, Nat.pos_iff_ne_zero.mp h, hfloor]
  · norm_num [FlowRowOf, fsTpEx]

/-! ## C8: malformed rows and load failure -/

/-- Counterexample to C8 as stated: a perfectly readable links file whose
only row is malformed still makes `main` return 1 (because `LoadLinks`
returns `!g_links.empty()`), so an unreadable input file is not the only
input condition escalated to process failure. -/
theorem load_abort_counterexample :
    some [(none : Option LinkParam)] ≠
      (none : Option (List (Option LinkParam))) ∧
    mainLoadAborts (some [none]) (some [some demandEx]) = true := by
  exact ⟨by decide, by decide⟩

/-- C8 (amended): a malformed row is skipped and loading continues with the
remaining rows (for links and demands alike); the run is escalated to
process failure exactly when an input file is unreadable or when a readable
input file yields no successfully parsed rows. -/
theorem load_skip_and_abort :
    (∀ r1 r2 : List (Option LinkParam),
      loadLinksList (r1 ++ none :: r2) = loadLinksList (r1 ++ r2)) ∧
    (∀ q1 q2 : List (Option TrafficDemand),
      (LoadDemands (some (q1 ++ none :: q2))).2 =
        (LoadDemands (some (q1 ++ q2))).2) ∧
    (∀ (lf : Option (List (Option LinkParam)))
       (df : Option (List (Option TrafficDemand))),
      mainLoadAborts lf df = true ↔
        (lf = none ∨ loadLinksList (lf.getD []) = [] ∨ df = none ∨
          (df.getD []).filterMap id = [])) := by
  refine ⟨?_, ?_, ?_⟩
  · intro r1 r2
    simp [loadLinksList]
  · intro q1 q2
    simp [LoadDemands]
  · intro lf df
    cases lf with
    | none => simp [mainLoadAborts, LoadLinks]
    | some lr =>
      cases df with
      | none => simp [mainLoadAborts, LoadLinks, LoadDemands]
      | some dr =>
        simp [mainLoadAborts, LoadLinks, LoadDemands, List.isEmpty_iff]

/-! ## Extended-distance arithmetic -/

theorem edist_not_add_lt (a : EDist) (w : ℚ) (hw : 0 < w) :
    ¬ a + (w : EDist) < a := by
  cases a with
  | none =>
    show ¬ (⊤ : EDist) + _ < ⊤
    rw [top_add]
    exact lt_irrefl _
  | some q =>
    show ¬ ((q : ℚ) : EDist) + (w : EDist) < ((q : ℚ) : EDist)
    rw [← WithTop.coe_add, WithTop.coe_lt_coe]
    linarith

theorem edist_lt_add (a : EDist) (ha : a ≠ ⊤) (w : ℚ) (hw : 0 < w) :
    a < a + (w : EDist) := by
  cases a with
  | none => exact absurd rfl ha
  | some q =>
    show ((q : ℚ) : EDist) < ((q : ℚ) : EDist) + (w : EDist)
    rw [← WithTop.coe_add, WithTop.coe_lt_coe]
    linarith

theorem edist_le_add (a : EDist) (w : ℚ) (hw : 0 ≤ w) :
    a ≤ a + (w : EDist) := by
  exact le_add_of_nonneg_right (by exact_mod_cast hw)

theorem edist_add_ne_top {a : EDist} (ha : a ≠ ⊤) (w : ℚ) :
    a + (w : EDist) ≠ ⊤ :=
  WithTop.add_ne_top.mpr ⟨ha, WithTop.coe_ne_top⟩

theorem edist_lt_ne_top {a b : EDist} (h : a < b) : a ≠ ⊤ :=
  fun ha => not_top_lt (ha ▸ h)

/-! ## Priority-queue top -/

theorem pqTop_eq_none_iff {pq : List (EDist × ℕ)} : pqTop pq = none ↔ pq = [] := by
  cases pq <;> simp [pqTop]

theorem pqTop_cons_spec (xs : List (EDist × ℕ)) :
    ∀ x : EDist × ℕ, ∃ m, pqTop (x :: xs) = some m ∧ m ∈ x :: xs ∧
      m.1 ≤ x.1 ∧ ∀ y ∈ xs, m.1 ≤ y.1 := by
  induction xs with
  | nil => intro x; exact ⟨x, rfl, by simp, le_refl _, by simp⟩
  | cons y ys ih =>
    intro x
    obtain ⟨m, hm, hmem, hle, hall⟩ :=
      ih (if x.1 < y.1 ∨ (x.1 = y.1 ∧ x.2 ≤ y.2) then x else y)
    refine ⟨m, ?_, ?_, ?_, ?_⟩
    · simpa [pqTop, List.foldl_cons] using hm
    · rcases List.mem_cons.mp hmem with h | h
      · subst h
        split
        · exact List.mem_cons_self _ _
        · exact List.mem_cons_of_mem _ (List.mem_cons_self _ _)
      · exact List.mem_cons_of_mem _ (List.mem_cons_of_mem _ h)
    · refine le_trans hle ?_
      split
      · exact le_refl _
      · next hcond =>
        push_neg at hcond
        exact hcond.1
    · intro z hz
      rcases List.mem_cons.mp hz with h | h
      · subst h
        refine le_trans hle ?_
        split
        · next hcond =>
          rcases hcond with h | h
          · exact le_of_lt h
          · exact le_of_eq h.1
        · exact le_refl _
      · exact hall z h

theorem pqTop_spec {pq : List (EDist × ℕ)} {m : EDist × ℕ}
    (h : pqTop pq = some m) : m ∈ pq ∧ ∀ y ∈ pq, m.1 ≤ y.1 := by
  cases pq with
  | nil => simp [pqTop] at h
  | cons x xs =>
    obtain ⟨m', hm', hmem, hle, hall⟩ := pqTop_cons_spec xs x
    rw [hm'] at h
    cases h
    refine ⟨hmem, ?_⟩
    intro y hy
    rcases List.mem_cons.mp hy with h | h
    · exact h ▸ hle
    · exact hall y h

/-! ## Relaxation lemmas -/

theorem relaxEdges_nil (u0 : ℕ) (s : DState) : relaxEdges u0 s [] = s := rfl

theorem relaxEdges_cons (u0 : ℕ) (s : DState) (e : ℕ × ℚ) (rest : List (ℕ × ℚ)) :
    relaxEdges u0 s (e :: rest) = relaxEdges u0 (relaxStep u0 s e) rest := rfl

theorem relaxStep_dist_le (u0 : ℕ) (s : DState) (e : ℕ × ℚ) (v : ℕ) :
    (relaxStep u0 s e).dist v ≤ s.dist v := by
  simp only [relaxStep]
  split
  · next h =>
    by_cases hv : v = e.1
    · subst hv
      simp only [Function.update_same]
      exact le_of_lt h
    · simp only [Function.update_noteq hv]
      exact le_refl _
  · exact le_refl _

theorem relaxStep_prev_eq (u0 : ℕ) (s : DState) (e : ℕ × ℚ) (v : ℕ)
    (hv : v ≠ e.1) : (relaxStep u0 s e).prev v = s.prev v := by
  simp only [relaxStep]
  split
  · simp only [Function.update_noteq hv]
  · rfl

theorem relaxStep_dist_eq (u0 : ℕ) (s : DState) (e : ℕ × ℚ) (v : ℕ)
    (hv : v ≠ e.1) : (relaxStep u0 s e).dist v = s.dist v := by
  simp only [relaxStep]
  split
  · simp only [Function.update_noteq hv]
  · rfl

theorem relaxStep_target_ne_u0 (u0 : ℕ) (s : DState) (e : ℕ × ℚ)
    (hw : 0 < e.2) (hfire : s.dist u0 + (e.2 : EDist) < s.dist e.1) :
    e.1 ≠ u0 := by
  intro hEq
  rw [hEq] at hfire
  exact edist_not_add_lt (s.dist u0) e.2 hw hfire

theorem relaxStep_dist_u0 (u0 : ℕ) (s : DState) (e : ℕ × ℚ) (hw : 0 < e.2) :
    (relaxStep u0 s e).dist u0 = s.dist u0 := by
  by_cases hfire : s.dist u0 + (e.2 : EDist) < s.dist e.1
  · have hne : u0 ≠ e.1 := fun h => relaxStep_target_ne_u0 u0 s e hw hfire h.symm
    exact relaxStep_dist_eq u0 s e u0 hne
  · simp only [relaxStep, if_neg hfire]

theorem relaxStep_pq (u0 : ℕ) (s : DState) (e : ℕ × ℚ) :
    (relaxStep u0 s e).pq = s.pq ∨
      ((relaxStep u0 s e).pq = s.pq ++ [(s.dist u0 + (e.2 : EDist), e.1)] ∧
        (relaxStep u0 s e).dist e.1 = s.dist u0 + (e.2 : EDist) ∧
        s.dist u0 + (e.2 : EDist) < s.dist e.1) := by
  simp only [relaxStep]
  split
  · next h =>
    exact Or.inr ⟨rfl, Function.update_same _ _ _, h⟩
  · exact Or.inl rfl

theorem relaxEdges_dist_le (u0 : ℕ) :
    ∀ (es : List (ℕ × ℚ)) (s : DState) (v : ℕ),
      (relaxEdges u0 s es).dist v ≤ s.dist v := by
  intro es
  induction es with
  | nil => intro s v; exact le_refl _
  | cons e rest ih =>
    intro s v
    rw [relaxEdges_cons]
    exact le_trans (ih (relaxStep u0 s e) v) (relaxStep_dist_le u0 s e v)

theorem relaxEdges_dist_u0 (u0 : ℕ) :
    ∀ (es : List (ℕ × ℚ)) (s : DState), (∀ vw ∈ es, 0 < vw.2) →
      (relaxEdges u0 s es).dist u0 = s.dist u0 := by
  intro es
  induction es with
  | nil => intro s _; rfl
  | cons e rest ih =>
    intro s hpos
    rw [relaxEdges_cons, ih _ fun vw hvw => hpos vw (List.mem_cons_of_mem _ hvw),
      relaxStep_dist_u0 u0 s e (hpos e (List.mem_cons_self _ _))]

theorem relaxEdges_pq_append (u0 : ℕ) :
    ∀ (es : List (ℕ × ℚ)) (s : DState),
      ∃ new, (relaxEdges u0 s es).pq = s.pq ++ new := by
  intro es
  induction es with
  | nil => intro s; exact ⟨[], by simp [relaxEdges_nil]⟩
  | cons e rest ih =>
    intro s
    rw [relaxEdges_cons]
    obtain ⟨n2, hn2⟩ := ih (relaxStep u0 s e)
    rcases relaxStep_pq u0 s e with h | ⟨h, _, _⟩
    · exact ⟨n2, by rw [hn2, h]⟩
    · exact ⟨[(s.dist u0 + (e.2 : EDist), e.1)] ++ n2,
        by rw [hn2, h, List.append_assoc]⟩

theorem relaxEdges_pq_new (u0 : ℕ) :
    ∀ (es : List (ℕ × ℚ)) (s : DState), (∀ vw ∈ es, 0 < vw.2) →
      ∃ new, (relaxEdges u0 s es).pq = s.pq ++ new ∧
        new.length ≤ es.length ∧
        ∀ p ∈ new, ∃ vw, vw ∈ es ∧ p.2 = vw.1 ∧
          p.1 = s.dist u0 + (vw.2 : EDist) := by
  intro es
  induction es with
  | nil => intro s _; exact ⟨[], by simp [relaxEdges_nil], by simp, by simp⟩
  | cons e rest ih =>
    intro s hpos
    rw [relaxEdges_cons]
    obtain ⟨n2, hn2, hlen2, hdesc2⟩ :=
      ih (relaxStep u0 s e) fun vw hvw => hpos vw (List.mem_cons_of_mem _ hvw)
    have hu0 : (relaxStep u0 s e).dist u0 = s.dist u0 :=
      relaxStep_dist_u0 u0 s e (hpos e (List.mem_cons_self _ _))
    rcases relaxStep_pq u0 s e with h | ⟨h, _, _⟩
    · refine ⟨n2, by rw [hn2, h], le_trans hlen2 (Nat.le_succ _), ?_⟩
      intro p hp
      obtain ⟨vw, hvw, h1, h2⟩ := hdesc2 p hp
      exact ⟨vw, List.mem_cons_of_mem _ hvw, h1, by rw [h2, hu0]⟩
    · refine ⟨[(s.dist u0 + (e.2 : EDist), e.1)] ++ n2,
        by rw [hn2, h, List.append_assoc], by simpa using Nat.succ_le_succ hlen2, ?_⟩
      intro p hp
      rcases List.mem_append.mp hp with h1 | h1
      · have : p = (s.dist u0 + (e.2 : EDist), e.1) := by simpa using h1
        subst this
        exact ⟨e, List.mem_cons_self _ _, rfl, rfl⟩
      · obtain ⟨vw, hvw, h1, h2⟩ := hdesc2 p h1
        exact ⟨vw, List.mem_cons_of_mem _ hvw, h1, by rw [h2, hu0]⟩

theorem relaxEdges_pq_key (u0 : ℕ) :
    ∀ (es : List (ℕ × ℚ)) (s : DState), (∀ vw ∈ es, 0 < vw.2) →
      s.dist u0 ≠ ⊤ → (∀ p ∈ s.pq, s.dist p.2 ≤ p.1 ∧ p.1 ≠ ⊤) →
      ∀ p ∈ (relaxEdges u0 s es).pq,
        (relaxEdges u0 s es).dist p.2 ≤ p.1 ∧ p.1 ≠ ⊤ := by
  intro es
  induction es with
  | nil => intro s _ _ hkey; exact hkey
  | cons e rest ih =>
    intro s hpos hfin hkey
    rw [relaxEdges_cons]
    have hu0 : (relaxStep u0 s e).dist u0 = s.dist u0 :=
      relaxStep_dist_u0 u0 s e (hpos e (List.mem_cons_self _ _))
    refine ih (relaxStep u0 s e)
      (fun vw hvw => hpos vw (List.mem_cons_of_mem _ hvw)) (by rw [hu0]; exact hfin) ?_
    intro p hp
    rcases relaxStep_pq u0 s e with h | ⟨h, hset, _⟩
    · rw [h] at hp
      exact ⟨le_trans (relaxStep_dist_le u0 s e p.2) (hkey p hp).1, (hkey p hp).2⟩
    · rw [h] at hp
      rcases List.mem_append.mp hp with h1 | h1
      · exact ⟨le_trans (relaxStep_dist_le u0 s e p.2) (hkey p h1).1, (hkey p h1).2⟩
      · have hpEq : p = (s.dist u0 + (e.2 : EDist), e.1) := by simpa using h1
        subst hpEq
        exact ⟨le_of_eq hset, edist_add_ne_top hfin e.2⟩

theorem relaxEdges_closed (u0 : ℕ) :
    ∀ (es : List (ℕ × ℚ)) (s : DState), (∀ vw ∈ es, 0 < vw.2) →
      ∀ vw ∈ es, (relaxEdges u0 s es).dist vw.1 ≤ s.dist u0 + (vw.2 : EDist) := by
  intro es
  induction es with
  | nil => intro s _ vw hvw; simp at hvw
  | cons e rest ih =>
    intro s hpos vw hvw
    rw [relaxEdges_cons]
    have hu0 : (relaxStep u0 s e).dist u0 = s.dist u0 :=
      relaxStep_dist_u0 u0 s e (hpos e (List.mem_cons_self _ _))
    rcases List.mem_cons.mp hvw with h | h
    · rw [h]
      have hstep : (relaxStep u0 s e).dist e.1 ≤ s.dist u0 + (e.2 : EDist) := by
        by_cases hfire : s.dist u0 + (e.2 : EDist) < s.dist e.1
        · simp only [relaxStep, if_pos hfire, Function.update_same]
          exact le_refl _
        · simp only [relaxStep, if_neg hfire]
          exact not_lt.mp hfire
      exact le_trans (relaxEdges_dist_le u0 rest (relaxStep u0 s e) e.1) hstep
    · have := ih (relaxStep u0 s e)
        (fun x hx => hpos x (List.mem_cons_of_mem _ hx)) vw h
      rwa [hu0] at this

theorem relaxEdges_eq_of_closed (u0 : ℕ) :
    ∀ (es : List (ℕ × ℚ)) (s : DState),
      (∀ vw ∈ es, s.dist vw.1 ≤ s.dist u0 + (vw.2 : EDist)) →
      relaxEdges u0 s es = s := by
  intro es
  induction es with
  | nil => intro s _; rfl
  | cons e rest ih =>
    intro s hcl
    have hstep : relaxStep u0 s e = s := by
      simp only [relaxStep,
        if_neg (not_lt.mpr (hcl e (List.mem_cons_self _ _)))]
    rw [relaxEdges_cons, hstep]
    exact ih s fun vw hvw => hcl vw (List.mem_cons_of_mem _ hvw)

theorem relaxEdges_frozen (u0 : ℕ) :
    ∀ (es : List (ℕ × ℚ)) (s : DState) (x : ℕ), (∀ vw ∈ es, 0 < vw.2) →
      s.dist x ≤ s.dist u0 → (relaxEdges u0 s es).dist x = s.dist x := by
  intro es
  induction es with
  | nil => intro s x _ _; rfl
  | cons e rest ih =>
    intro s x hpos hle
    have hw : 0 < e.2 := hpos e (List.mem_cons_self _ _)
    have hu0 : (relaxStep u0 s e).dist u0 = s.dist u0 :=
      relaxStep_dist_u0 u0 s e hw
    have hstep : (relaxStep u0 s e).dist x = s.dist x := by
      by_cases hx : x = e.1
      · by_cases hfire : s.dist u0 + (e.2 : EDist) < s.dist e.1
        · exact absurd (lt_of_lt_of_le hfire (hx ▸ hle))
            (edist_not_add_lt (s.dist u0) e.2 hw)
        · simp only [relaxStep, if_neg hfire]
      · exact relaxStep_dist_eq u0 s e x hx
    rw [relaxEdges_cons, ih (relaxStep u0 s e) x
      (fun vw hvw => hpos vw (List.mem_cons_of_mem _ hvw))
      (by rw [hstep, hu0]; exact hle), hstep]

theorem relaxEdges_changed_witness (u0 : ℕ) :
    ∀ (es : List (ℕ × ℚ)) (s : DState) (v : ℕ),
      (relaxEdges u0 s es).dist v ≠ s.dist v →
      ∃ p ∈ (relaxEdges u0 s es).pq, p.2 = v ∧
        p.1 = (relaxEdges u0 s es).dist v := by
  intro es
  induction es with
  | nil => intro s v hch; exact absurd rfl hch
  | cons e rest ih =>
    intro s v hch
    rw [relaxEdges_cons] at hch ⊢
    by_cases hc : (relaxEdges u0 (relaxStep u0 s e) rest).dist v =
        (relaxStep u0 s e).dist v
    · have hch1 : (relaxStep u0 s e).dist v ≠ s.dist v := by
        intro hEq; exact hch (by rw [hc, hEq])
      have hv : v = e.1 := by
        by_contra hne
        exact hch1 (relaxStep_dist_eq u0 s e v hne)
      subst hv
      by_cases hfire : s.dist u0 + (e.2 : EDist) < s.dist e.1
      · have h : (relaxStep u0 s e).pq =
            s.pq ++ [(s.dist u0 + (e.2 : EDist), e.1)] := by
          simp only [relaxStep, if_pos hfire]
        have hset : (relaxStep u0 s e).dist e.1 = s.dist u0 + (e.2 : EDist) := by
          simp only [relaxStep, if_pos hfire, Function.update_same]
        obtain ⟨n2, hn2⟩ := relaxEdges_pq_append u0 rest (relaxStep u0 s e)
        refine ⟨(s.dist u0 + (e.2 : EDist), e.1), ?_, rfl, ?_⟩
        · rw [hn2, h]
          simp
        · rw [hc, hset]
      · exact absurd (by simp only [relaxStep, if_neg hfire]) hch1
    · obtain ⟨p, hp, h1, h2⟩ := ih (relaxStep u0 s e) v hc
      exact ⟨p, hp, h1, h2⟩

theorem relaxEdges_nonneg_src (u0 src : ℕ) :
    ∀ (es : List (ℕ × ℚ)) (s : DState), (∀ vw ∈ es, 0 < vw.2) →
      (∀ v, 0 ≤ s.dist v) → s.dist src = 0 →
      (∀ v, 0 ≤ (relaxEdges u0 s es).dist v) ∧
        (relaxEdges u0 s es).dist src = 0 := by
  intro es
  induction es with
  | nil => intro s _ h1 h2; exact ⟨h1, h2⟩
  | cons e rest ih =>
    intro s hpos hnn hsrc
    have hw : 0 < e.2 := hpos e (List.mem_cons_self _ _)
    have hnn1 : ∀ v, 0 ≤ (relaxStep u0 s e).dist v := by
      intro v
      simp only [relaxStep]
      split
      · by_cases hv : v = e.1
        · subst hv
          simp only [Function.update_same]
          exact add_nonneg (hnn u0) (by exact_mod_cast le_of_lt hw)
        · simp only [Function.update_noteq hv]
          exact hnn v
      · exact hnn v
    have hsrc1 : (relaxStep u0 s e).dist src = 0 := by
      by_cases hv : src = e.1
      · by_cases hfire : s.dist u0 + (e.2 : EDist) < s.dist e.1
        · exfalso
          have hlt : s.dist u0 + (e.2 : EDist) < 0 := by
            rw [← hsrc, hv]; exact hfire
          have hge : (0 : EDist) ≤ s.dist u0 + (e.2 : EDist) :=
            add_nonneg (hnn u0) (by exact_mod_cast le_of_lt hw)
          exact absurd (lt_of_le_of_lt hge hlt) (lt_irrefl _)
        · simp only [relaxStep, if_neg hfire]
          exact hsrc
      · rw [relaxStep_dist_eq u0 s e src hv]
        exact hsrc
    rw [relaxEdges_cons]
    exact ih (relaxStep u0 s e)
      (fun vw hvw => hpos vw (List.mem_cons_of_mem _ hvw)) hnn1 hsrc1

theorem relaxEdges_fin_node (u0 n : ℕ) :
    ∀ (es : List (ℕ × ℚ)) (s : DState), (∀ vw ∈ es, vw.1 < n) →
      (∀ v, s.dist v ≠ ⊤ → v < n) →
      ∀ v, (relaxEdges u0 s es).dist v ≠ ⊤ → v < n := by
  intro es
  induction es with
  | nil => intro s _ h; exact h
  | cons e rest ih =>
    intro s hlt hfin
    rw [relaxEdges_cons]
    refine ih (relaxStep u0 s e)
      (fun vw hvw => hlt vw (List.mem_cons_of_mem _ hvw)) ?_
    intro v hv
    by_cases hve : v = e.1
    · exact hve ▸ hlt e (List.mem_cons_self _ _)
    · rw [relaxStep_dist_eq u0 s e v hve] at hv
      exact hfin v hv

theorem relaxEdges_pq_node (u0 n : ℕ) :
    ∀ (es : List (ℕ × ℚ)) (s : DState), (∀ vw ∈ es, vw.1 < n) →
      (∀ p ∈ s.pq, p.2 < n) →
      ∀ p ∈ (relaxEdges u0 s es).pq, p.2 < n := by
  intro es
  induction es with
  | nil => intro s _ h; exact h
  | cons e rest ih =>
    intro s hlt hnode
    rw [relaxEdges_cons]
    refine ih (relaxStep u0 s e)
      (fun vw hvw => hlt vw (List.mem_cons_of_mem _ hvw)) ?_
    intro p hp
    rcases relaxStep_pq u0 s e with h | ⟨h, _, _⟩
    · rw [h] at hp; exact hnode p hp
    · rw [h] at hp
      rcases List.mem_append.mp hp with h1 | h1
      · exact hnode p h1
      · have : p = (s.dist u0 + (e.2 : EDist), e.1) := by simpa using h1
        rw [this]
        exact hlt e (List.mem_cons_self _ _)

theorem relaxEdges_prev (adj : ℕ → List (ℕ × ℚ)) (u0 src : ℕ) :
    ∀ (es : List (ℕ × ℚ)) (s : DState), (∀ vw ∈ es, vw ∈ adj u0) →
      (∀ vw ∈ es, 0 < vw.2) →
      (∀ v, s.prev v ≠ -1 →
        ∃ (u : ℕ) (w : ℚ), s.prev v = (u : ℤ) ∧ (v, w) ∈ adj u ∧ 0 < w ∧
          s.dist u + (w : EDist) ≤ s.dist v ∧ s.dist v ≠ ⊤) →
      (∀ v, s.dist v ≠ ⊤ → v = src ∨ s.prev v ≠ -1) →
      (∀ v, (relaxEdges u0 s es).prev v ≠ -1 →
        ∃ (u : ℕ) (w : ℚ), (relaxEdges u0 s es).prev v = (u : ℤ) ∧
          (v, w) ∈ adj u ∧ 0 < w ∧
          (relaxEdges u0 s es).dist u + (w : EDist) ≤
            (relaxEdges u0 s es).dist v ∧
          (relaxEdges u0 s es).dist v ≠ ⊤) ∧
      (∀ v, (relaxEdges u0 s es).dist v ≠ ⊤ →
        v = src ∨ (relaxEdges u0 s es).prev v ≠ -1) := by
  intro es
  induction es with
  | nil => intro s _ _ h1 h2; exact ⟨h1, h2⟩
  | cons e rest ih =>
    intro s hsub hpos hpe hfp
    have hw : 0 < e.2 := hpos e (List.mem_cons_self _ _)
    have hmem : e ∈ adj u0 := hsub e (List.mem_cons_self _ _)
    rw [relaxEdges_cons]
    refine ih (relaxStep u0 s e)
      (fun vw hvw => hsub vw (List.mem_cons_of_mem _ hvw))
      (fun vw hvw => hpos vw (List.mem_cons_of_mem _ hvw)) ?_ ?_
    · -- prev_edge preserved by one step
      intro v hv
      by_cases hfire : s.dist u0 + (e.2 : EDist) < s.dist e.1
      · have hne1 : e.1 ≠ u0 := relaxStep_target_ne_u0 u0 s e hw hfire
        by_cases hve : v = e.1
        · refine ⟨u0, e.2, ?_, ?_, hw, ?_, ?_⟩
          · rw [hve]
            simp only [relaxStep, if_pos hfire, Function.update_same]
          · rw [hve]
            exact (Prod.mk.eta (p := e)) ▸ hmem
          · rw [relaxStep_dist_u0 u0 s e hw, hve]
            simp only [relaxStep, if_pos hfire, Function.update_same]
            exact le_refl _
          · rw [hve]
            simp only [relaxStep, if_pos hfire, Function.update_same]
            exact edist_lt_ne_top hfire
        · rw [relaxStep_prev_eq u0 s e v hve] at hv ⊢
          obtain ⟨u, w, h1, h2, h3, h4, h5⟩ := hpe v hv
          refine ⟨u, w, h1, h2, h3, ?_, ?_⟩
          · rw [relaxStep_dist_eq u0 s e v hve]
            exact le_trans (add_le_add_right (relaxStep_dist_le u0 s e u) _) h4
          · rw [relaxStep_dist_eq u0 s e v hve]
            exact h5
      · have hid : relaxStep u0 s e = s := by
          simp only [relaxStep, if_neg hfire]
        rw [hid] at hv ⊢
        exact hpe v hv
    · -- fin_prev preserved by one step
      intro v hv
      by_cases hfire : s.dist u0 + (e.2 : EDist) < s.dist e.1
      · by_cases hve : v = e.1
        · right
          rw [hve]
          simp only [relaxStep, if_pos hfire, Function.update_same]
          intro hEq
          have : (0 : ℤ) ≤ (u0 : ℤ) := Int.natCast_nonneg u0
          omega
        · rw [relaxStep_dist_eq u0 s e v hve] at hv
          rw [relaxStep_prev_eq u0 s e v hve]
          exact hfp v hv
      · have hid : relaxStep u0 s e = s := by
          simp only [relaxStep, if_neg hfire]
        rw [hid] at hv ⊢
        exact hfp v hv

/-! ## Loop iteration invariants -/

theorem dinv_init (adj : ℕ → List (ℕ × ℚ)) (n src : ℕ) (hsrc : src < n) :
    DInv adj n src (dijkstraInit src) := by
  refine ⟨?_, ?_, ?_, ?_, ?_, ?_, ?_, ?_⟩
  · intro p hp
    have : p = ((0 : EDist), src) := by simpa [dijkstraInit] using hp
    rw [this]
    exact hsrc
  · intro p hp
    have : p = ((0 : EDist), src) := by simpa [dijkstraInit] using hp
    rw [this]
    constructor
    · simp [dijkstraInit]
    · simp
  · intro v
    simp only [dijkstraInit]
    split
    · exact le_refl _
    · exact le_top
  · simp [dijkstraInit]
  · intro v hv
    simp only [dijkstraInit] at hv
    by_cases h : v = src
    · exact h ▸ hsrc
    · rw [if_neg h] at hv
      exact absurd rfl hv
  · intro v hv
    simp [dijkstraInit] at hv
  · intro v hv
    simp only [dijkstraInit] at hv
    by_cases h : v = src
    · exact Or.inl h
    · rw [if_neg h] at hv
      exact absurd rfl hv
  · intro u
    by_cases h : u = src
    · exact Or.inl ⟨((0 : EDist), src), by simp [dijkstraInit], by rw [h],
        by simp [dijkstraInit, h]⟩
    · refine Or.inr fun vw _ => ?_
      have : (dijkstraInit src).dist u = ⊤ := by simp [dijkstraInit, h]
      rw [this, top_add]
      exact le_top

theorem dinv_erase {adj : ℕ → List (ℕ × ℚ)} {n src : ℕ} {s : DState}
    (hinv : DInv adj n src s) (du : EDist × ℕ) (hdu : du ∈ s.pq)
    (hstale : du.1 > s.dist du.2) :
    DInv adj n src { s with pq := s.pq.erase du } := by
  refine ⟨?_, ?_, hinv.nonneg, hinv.src_zero, hinv.fin_node, hinv.prev_edge,
    hinv.fin_prev, ?_⟩
  · intro p hp
    exact hinv.pq_node p (List.mem_of_mem_erase hp)
  · intro p hp
    exact hinv.pq_key p (List.mem_of_mem_erase hp)
  · intro u
    rcases hinv.open_closed u with ⟨p, hp, h2, h3⟩ | hcl
    · left
      refine ⟨p, ?_, h2, h3⟩
      have hne : p ≠ du := by
        intro hEq
        rw [hEq] at h2 h3
        rw [h2] at hstale
        exact absurd h3 (ne_of_gt hstale)
      exact (List.mem_erase_of_ne hne).mpr hp
    · exact Or.inr hcl

theorem dinv_relax {adj : ℕ → List (ℕ × ℚ)} {n src : ℕ} {s : DState}
    (hadj : AdjOK adj n) (hinv : DInv adj n src s) (du : EDist × ℕ)
    (htop : pqTop s.pq = some du) (hns : ¬ du.1 > s.dist du.2) :
    DInv adj n src
      (relaxEdges du.2 { s with pq := s.pq.erase du } (adj du.2)) := by
  obtain ⟨hdu, hmin⟩ := pqTop_spec htop
  have hdEq : s.dist du.2 = du.1 :=
    le_antisymm (hinv.pq_key du hdu).1 (not_lt.mp hns)
  have hfin : s.dist du.2 ≠ ⊤ := by
    rw [hdEq]; exact (hinv.pq_key du hdu).2
  set s1 : DState := { s with pq := s.pq.erase du } with hs1
  have hs1dist : s1.dist = s.dist := rfl
  have hs1prev : s1.prev = s.prev := rfl
  have hs1sub : ∀ p ∈ s1.pq, p ∈ s.pq := fun p hp => List.mem_of_mem_erase hp
  have hpos : ∀ vw ∈ adj du.2, 0 < vw.2 := fun vw hvw => (hadj du.2 vw hvw).2
  have hlt : ∀ vw ∈ adj du.2, vw.1 < n := fun vw hvw => (hadj du.2 vw hvw).1
  have hprev := relaxEdges_prev adj du.2 src (adj du.2) s1 (fun vw h => h) hpos
    (by rw [hs1prev, hs1dist]; exact hinv.prev_edge)
    (by rw [hs1prev, hs1dist]; exact hinv.fin_prev)
  have hnnsrc := relaxEdges_nonneg_src du.2 src (adj du.2) s1 hpos
    (by rw [hs1dist]; exact hinv.nonneg) (by rw [hs1dist]; exact hinv.src_zero)
  refine ⟨?_, ?_, hnnsrc.1, hnnsrc.2, ?_, hprev.1, hprev.2, ?_⟩
  · exact relaxEdges_pq_node du.2 n (adj du.2) s1 hlt
      (fun p hp => hinv.pq_node p (hs1sub p hp))
  · exact relaxEdges_pq_key du.2 (adj du.2) s1 hpos
      (by rw [hs1dist]; exact hfin)
      (fun p hp => by rw [hs1dist]; exact hinv.pq_key p (hs1sub p hp))
  · exact relaxEdges_fin_node du.2 n (adj du.2) s1 hlt
      (by rw [hs1dist]; exact hinv.fin_node)
  · -- open or closed after relaxation
    intro u
    by_cases hu : u = du.2
    · subst hu
      refine Or.inr fun vw hvw => ?_
      have h1 := relaxEdges_closed du.2 (adj du.2) s1 hpos vw hvw
      rwa [← relaxEdges_dist_u0 du.2 (adj du.2) s1 hpos] at h1
    · by_cases hch : (relaxEdges du.2 s1 (adj du.2)).dist u = s.dist u
      · rcases hinv.open_closed u with ⟨p, hp, h2, h3⟩ | hcl
        · left
          refine ⟨p, ?_, h2, by rw [hch, h3]⟩
          obtain ⟨new, hnew⟩ := relaxEdges_pq_append du.2 (adj du.2) s1
          rw [hnew]
          refine List.mem_append.mpr (Or.inl ?_)
          have hne : p ≠ du := by
            intro hEq
            exact hu (by rw [← hEq, h2])
          exact (List.mem_erase_of_ne hne).mpr hp
        · refine Or.inr fun vw hvw => ?_
          calc (relaxEdges du.2 s1 (adj du.2)).dist vw.1
              ≤ s1.dist vw.1 := relaxEdges_dist_le du.2 (adj du.2) s1 vw.1
            _ ≤ s.dist u + (vw.2 : EDist) := by
                rw [hs1dist]; exact hcl vw hvw
            _ = (relaxEdges du.2 s1 (adj du.2)).dist u + (vw.2 : EDist) := by
                rw [hch]
      · left
        have := relaxEdges_changed_witness du.2 (adj du.2) s1 u
          (by rw [hs1dist]; exact hch)
        obtain ⟨p, hp, h1, h2⟩ := this
        exact ⟨p, hp, h1, h2⟩

/-! ## Termination of the loop: finished nodes and the potential -/

theorem goodNode_erase {adj : ℕ → List (ℕ × ℚ)} {s : DState} (du : EDist × ℕ)
    (u : ℕ) (hgood : GoodNode adj s u) :
    GoodNode adj { s with pq := s.pq.erase du } u :=
  ⟨hgood.1, fun p hp => hgood.2.1 p (List.mem_of_mem_erase hp), hgood.2.2⟩

theorem goodNode_relax {adj : ℕ → List (ℕ × ℚ)} {n src : ℕ} {s : DState}
    (hadj : AdjOK adj n) (hinv : DInv adj n src s) (du : EDist × ℕ)
    (htop : pqTop s.pq = some du) (hns : ¬ du.1 > s.dist du.2) (u : ℕ)
    (hgood : GoodNode adj s u) :
    GoodNode adj (relaxEdges du.2 { s with pq := s.pq.erase du } (adj du.2)) u ∧
      (relaxEdges du.2 { s with pq := s.pq.erase du } (adj du.2)).dist u =
        s.dist u := by
  obtain ⟨hdu, hmin⟩ := pqTop_spec htop
  have hdEq : s.dist du.2 = du.1 :=
    le_antisymm (hinv.pq_key du hdu).1 (not_lt.mp hns)
  set s1 : DState := { s with pq := s.pq.erase du } with hs1
  have hpos : ∀ vw ∈ adj du.2, 0 < vw.2 := fun vw hvw => (hadj du.2 vw hvw).2
  have hle : s.dist u ≤ s.dist du.2 := by
    rw [hdEq]; exact hgood.2.1 du hdu
  have hfrozen : (relaxEdges du.2 s1 (adj du.2)).dist u = s.dist u :=
    relaxEdges_frozen du.2 (adj du.2) s1 u hpos hle
  obtain ⟨new, hnew, _, hdesc⟩ := relaxEdges_pq_new du.2 (adj du.2) s1 hpos
  refine ⟨⟨by rw [hfrozen]; exact hgood.1, ?_, ?_⟩, hfrozen⟩
  · intro p hp
    rw [hfrozen]
    rw [hnew] at hp
    rcases List.mem_append.mp hp with h | h
    · exact hgood.2.1 p (List.mem_of_mem_erase h)
    · obtain ⟨vw, hvw, _, hkey⟩ := hdesc p h
      rw [hkey]
      calc s.dist u ≤ s.dist du.2 := hle
        _ ≤ s.dist du.2 + (vw.2 : EDist) :=
            edist_le_add _ _ (le_of_lt (hpos vw hvw))
  · intro vw hvw
    rw [hfrozen]
    calc (relaxEdges du.2 s1 (adj du.2)).dist vw.1
        ≤ s.dist vw.1 := relaxEdges_dist_le du.2 (adj du.2) s1 vw.1
      _ ≤ s.dist u + (vw.2 : EDist) := hgood.2.2 vw hvw

theorem goodNode_newly {adj : ℕ → List (ℕ × ℚ)} {n src : ℕ} {s : DState}
    (hadj : AdjOK adj n) (hinv : DInv adj n src s) (du : EDist × ℕ)
    (htop : pqTop s.pq = some du) (hns : ¬ du.1 > s.dist du.2) :
    GoodNode adj (relaxEdges du.2 { s with pq := s.pq.erase du } (adj du.2))
      du.2 := by
  obtain ⟨hdu, hmin⟩ := pqTop_spec htop
  have hdEq : s.dist du.2 = du.1 :=
    le_antisymm (hinv.pq_key du hdu).1 (not_lt.mp hns)
  set s1 : DState := { s with pq := s.pq.erase du } with hs1
  have hpos : ∀ vw ∈ adj du.2, 0 < vw.2 := fun vw hvw => (hadj du.2 vw hvw).2
  have hu0 : (relaxEdges du.2 s1 (adj du.2)).dist du.2 = s.dist du.2 :=
    relaxEdges_dist_u0 du.2 (adj du.2) s1 hpos
  obtain ⟨new, hnew, _, hdesc⟩ := relaxEdges_pq_new du.2 (adj du.2) s1 hpos
  refine ⟨?_, ?_, ?_⟩
  · rw [hu0, hdEq]
    exact (hinv.pq_key du hdu).2
  · intro p hp
    rw [hu0]
    rw [hnew] at hp
    rcases List.mem_append.mp hp with h | h
    · rw [hdEq]
      exact hmin p (List.mem_of_mem_erase h)
    · obtain ⟨vw, hvw, _, hkey⟩ := hdesc p h
      rw [hkey]
      exact edist_le_add _ _ (le_of_lt (hpos vw hvw))
  · intro vw hvw
    rw [hu0]
    exact relaxEdges_closed du.2 (adj du.2) s1 hpos vw hvw

theorem phiMeasure_erase_lt (adj : ℕ → List (ℕ × ℚ)) (n : ℕ) (s : DState)
    (du : EDist × ℕ) (hdu : du ∈ s.pq) :
    PhiMeasure adj n { s with pq := s.pq.erase du } < PhiMeasure adj n s := by
  have hlen : (s.pq.erase du).length = s.pq.length - 1 :=
    List.length_erase_of_mem hdu
  have hpos : 0 < s.pq.length := List.length_pos_of_mem hdu
  have hsub : ((Finset.range n).filter
        (fun u => ¬ GoodNode adj { s with pq := s.pq.erase du } u)) ⊆
      ((Finset.range n).filter (fun u => ¬ GoodNode adj s u)) := by
    intro x hx
    rw [Finset.mem_filter] at hx ⊢
    exact ⟨hx.1, fun hgood => hx.2 (goodNode_erase du x hgood)⟩
  have hsum : ((Finset.range n).filter
        (fun u => ¬ GoodNode adj { s with pq := s.pq.erase du } u)).sum
          (fun u => (adj u).length) ≤
      ((Finset.range n).filter (fun u => ¬ GoodNode adj s u)).sum
        (fun u => (adj u).length) :=
    Finset.sum_le_sum_of_subset hsub
  unfold PhiMeasure
  dsimp only
  omega

theorem phiMeasure_relax_lt {adj : ℕ → List (ℕ × ℚ)} {n src : ℕ} {s : DState}
    (hadj : AdjOK adj n) (hinv : DInv adj n src s) (du : EDist × ℕ)
    (htop : pqTop s.pq = some du) (hns : ¬ du.1 > s.dist du.2)
    (hbad : ¬ GoodNode adj s du.2) :
    PhiMeasure adj n
        (relaxEdges du.2 { s with pq := s.pq.erase du } (adj du.2)) <
      PhiMeasure adj n s := by
  obtain ⟨hdu, hmin⟩ := pqTop_spec htop
  set s1 : DState := { s with pq := s.pq.erase du } with hs1
  set r : DState := relaxEdges du.2 s1 (adj du.2) with hr
  have hpos : ∀ vw ∈ adj du.2, 0 < vw.2 := fun vw hvw => (hadj du.2 vw hvw).2
  obtain ⟨new, hnew, hnewlen, _⟩ := relaxEdges_pq_new du.2 (adj du.2) s1 hpos
  have hlen1 : (s.pq.erase du).length = s.pq.length - 1 :=
    List.length_erase_of_mem hdu
  have hpos1 : 0 < s.pq.length := List.length_pos_of_mem hdu
  have hlenr : r.pq.length ≤ s.pq.length - 1 + (adj du.2).length := by
    rw [hnew]
    simp only [List.length_append]
    have : s1.pq.length = s.pq.length - 1 := hlen1
    omega
  have hmem0 : du.2 ∈ (Finset.range n).filter (fun u => ¬ GoodNode adj s u) := by
    rw [Finset.mem_filter, Finset.mem_range]
    exact ⟨hinv.pq_node du hdu, hbad⟩
  have hsub : ((Finset.range n).filter (fun u => ¬ GoodNode adj r u)) ⊆
      ((Finset.range n).filter (fun u => ¬ GoodNode adj s u)).erase du.2 := by
    intro x hx
    rw [Finset.mem_filter] at hx
    rw [Finset.mem_erase, Finset.mem_filter]
    refine ⟨?_, hx.1, ?_⟩
    · intro hEq
      exact hx.2 (hEq ▸ goodNode_newly hadj hinv du htop hns)
    · intro hgood
      exact hx.2 (goodNode_relax hadj hinv du htop hns x hgood).1
  have hsum1 : ((Finset.range n).filter (fun u => ¬ GoodNode adj r u)).sum
        (fun u => (adj u).length) ≤
      (((Finset.range n).filter (fun u => ¬ GoodNode adj s u)).erase du.2).sum
        (fun u => (adj u).length) :=
    Finset.sum_le_sum_of_subset hsub
  have hsum2 : (((Finset.range n).filter
          (fun u => ¬ GoodNode adj s u)).erase du.2).sum
            (fun u => (adj u).length) + (adj du.2).length =
      ((Finset.range n).filter (fun u => ¬ GoodNode adj s u)).sum
        (fun u => (adj u).length) :=
    Finset.sum_erase_add _ _ hmem0
  unfold PhiMeasure
  omega

/-- Each loop iteration preserves the invariant and strictly decreases the
potential, so with fuel exceeding the potential the queue is emptied. -/
theorem dijkstraLoop_done {adj : ℕ → List (ℕ × ℚ)} {n src : ℕ}
    (hadj : AdjOK adj n) :
    ∀ (fuel : ℕ) (s : DState), DInv adj n src s → PhiMeasure adj n s < fuel →
      DInv adj n src (dijkstraLoop adj fuel s) ∧
        (dijkstraLoop adj fuel s).pq = [] := by
  intro fuel
  induction fuel with
  | zero => intro s _ h; exact absurd h (Nat.not_lt_zero _)
  | succ fuel ih =>
    intro s hinv hphi
    cases htop : pqTop s.pq with
    | none =>
      have : dijkstraLoop adj (fuel + 1) s = s := by
        rw [dijkstraLoop, htop]
      rw [this]
      exact ⟨hinv, pqTop_eq_none_iff.mp htop⟩
    | some du =>
      obtain ⟨hdu, hmin⟩ := pqTop_spec htop
      have hgoal : dijkstraLoop adj (fuel + 1) s =
          if du.1 > s.dist du.2 then
            dijkstraLoop adj fuel { s with pq := s.pq.erase du }
          else
            dijkstraLoop adj fuel
              (relaxEdges du.2 { s with pq := s.pq.erase du } (adj du.2)) := by
        rw [dijkstraLoop, htop]
      rw [hgoal]
      by_cases hstale : du.1 > s.dist du.2
      · rw [if_pos hstale]
        refine ih { s with pq := s.pq.erase du }
          (dinv_erase hinv du hdu hstale) ?_
        have := phiMeasure_erase_lt adj n s du hdu
        omega
      · rw [if_neg hstale]
        refine ih _ (dinv_relax hadj hinv du htop hstale) ?_
        by_cases hgood : GoodNode adj s du.2
        · have hEq : relaxEdges du.2 { s with pq := s.pq.erase du }
              (adj du.2) = { s with pq := s.pq.erase du } :=
            relaxEdges_eq_of_closed du.2 (adj du.2) _ hgood.2.2
          rw [hEq]
          have := phiMeasure_erase_lt adj n s du hdu
          omega
        · have := phiMeasure_relax_lt hadj hinv du htop hstale hgood
          omega

/-- `Dijkstra`'s fuel bound suffices: the final state satisfies the loop
invariant and its queue is empty (the `while` loop has run to completion). -/
theorem dijkstraLoop_final {adj : ℕ → List (ℕ × ℚ)} {n src : ℕ}
    (hadj : AdjOK adj n) (hsrc : src < n) :
    DInv adj n src
        (dijkstraLoop adj (2 + degreeSum adj n) (dijkstraInit src)) ∧
      (dijkstraLoop adj (2 + degreeSum adj n) (dijkstraInit src)).pq = [] := by
  refine dijkstraLoop_done hadj _ _ (dinv_init adj n src hsrc) ?_
  have hsub : ((Finset.range n).filter
        (fun u => ¬ GoodNode adj (dijkstraInit src) u)) ⊆ Finset.range n :=
    Finset.filter_subset _ _
  have hsum : ((Finset.range n).filter
        (fun u => ¬ GoodNode adj (dijkstraInit src) u)).sum
          (fun u => (adj u).length) ≤
      (Finset.range n).sum (fun u => (adj u).length) :=
    Finset.sum_le_sum_of_subset hsub
  have hlen : (dijkstraInit src).pq.length = 1 := rfl
  unfold PhiMeasure degreeSum
  omega

/-! ## Path costs and the predecessor walk -/

theorem listCost_append {adj : ℕ → List (ℕ × ℚ)} :
    ∀ {p : List ℕ} {c : ℚ}, ListCost adj p c →
      ∀ {u v : ℕ} {w : ℚ}, p.getLast? = some u → (v, w) ∈ adj u →
        ListCost adj (p ++ [v]) (c + w) := by
  intro p c hp
  induction hp with
  | single u0 =>
    intro u v w hlast hedge
    have hu : u = u0 := by simpa using hlast.symm
    subst hu
    have : ListCost adj [u, v] (w + 0) :=
      ListCost.cons hedge (ListCost.single v)
    simpa [add_comm] using this
  | cons hedge0 hrest ih =>
    intro u v w hlast hedge
    rw [List.getLast?_cons_cons] at hlast
    have := ListCost.cons hedge0 (ih hlast hedge)
    simpa [add_assoc] using this

theorem listCost_chain {adj : ℕ → List (ℕ × ℚ)} :
    ∀ {p : List ℕ} {c : ℚ}, ListCost adj p c →
      List.Chain' (fun a b => ∃ w, (b, w) ∈ adj a) p := by
  intro p c hp
  induction hp with
  | single u0 => simp
  | cons hedge hrest ih =>
    exact List.chain'_cons.mpr ⟨⟨_, hedge⟩, ih⟩

theorem chain'_pairs {R : ℕ → ℕ → Prop} :
    ∀ {p : List ℕ}, List.Chain' R p → ∀ ab ∈ p.zip p.tail, R ab.1 ab.2 := by
  intro p
  induction p with
  | nil => intro _ ab hab; simp at hab
  | cons a rest ih =>
    cases rest with
    | nil => intro _ ab hab; simp at hab
    | cons b rest2 =>
      intro hch ab hab
      rcases List.mem_cons.mp hab with h | h
      · rw [h]
        exact (List.chain'_cons.mp hch).1
      · exact ih (List.chain'_cons.mp hch).2 ab h

theorem allClosed_dist_le {adj : ℕ → List (ℕ × ℚ)} {dist : ℕ → EDist}
    (hclosed : ∀ u, ∀ vw ∈ adj u, dist vw.1 ≤ dist u + (vw.2 : EDist)) :
    ∀ {p : List ℕ} {c : ℚ}, ListCost adj p c →
      ∀ {a b : ℕ}, p.head? = some a → p.getLast? = some b →
        dist b ≤ dist a + (c : EDist) := by
  intro p c hp
  induction hp with
  | single u0 =>
    intro a b ha hb
    have ha' : a = u0 := by simpa using ha.symm
    have hb' : b = u0 := by simpa using hb.symm
    subst ha'; subst hb'
    simp
  | cons hedge hrest ih =>
    rename_i u v w c0 rest
    intro a b ha hb
    have ha' : a = u := by simpa using ha.symm
    rw [List.getLast?_cons_cons] at hb
    rw [ha']
    calc dist b ≤ dist v + (c0 : EDist) := ih rfl hb
      _ ≤ (dist u + (w : EDist)) + (c0 : EDist) :=
          add_le_add_right (hclosed u (v, w) hedge) _
      _ = dist u + ((w + c0 : ℚ) : EDist) := by
          push_cast
          rw [add_assoc]

theorem rankOf_lt {n : ℕ} {dist : ℕ → EDist} {u v : ℕ} (hu : u < n)
    (hlt : dist u < dist v) : rankOf n dist u < rankOf n dist v := by
  apply Finset.card_lt_card
  rw [Finset.ssubset_iff_of_subset]
  · exact ⟨u, by
      rw [Finset.mem_filter, Finset.mem_range]
      exact ⟨hu, hlt⟩, by
      rw [Finset.mem_filter]
      rintro ⟨-, h⟩
      exact absurd h (lt_irrefl _)⟩
  · intro x hx
    rw [Finset.mem_filter] at hx ⊢
    exact ⟨hx.1, lt_trans hx.2 hlt⟩

theorem rankOf_lt_n {n : ℕ} (dist : ℕ → EDist) {v : ℕ} (hv : v < n) :
    rankOf n dist v < n := by
  have hsub : ((Finset.range n).filter (fun x => dist x < dist v)) ⊆
      (Finset.range n).erase v := by
    intro x hx
    rw [Finset.mem_filter] at hx
    rw [Finset.mem_erase]
    refine ⟨?_, hx.1⟩
    intro hEq
    exact absurd (hEq ▸ hx.2) (lt_irrefl _)
  have h1 := Finset.card_le_card hsub
  have h2 : ((Finset.range n).erase v).card = n - 1 := by
    rw [Finset.card_erase_of_mem (Finset.mem_range.mpr hv), Finset.card_range]
  rw [rankOf]
  omega

/-- The predecessor walk of `GetPath`, under the loop invariant: from any
node at finite distance it terminates (within `rank + 2` steps), producing a
path from `src` to that node whose cost is at most the node's distance and
along which distances strictly increase. -/
theorem getPathWalk_spec {adj : ℕ → List (ℕ × ℚ)} {n src : ℕ} (s : DState)
    (hinv : DInv adj n src s) :
    ∀ (fuel : ℕ) (v : ℕ) (acc : List ℕ), s.dist v ≠ ⊤ →
      rankOf n s.dist v + 2 ≤ fuel →
      ∃ q c, getPathWalk s.prev fuel (v : ℤ) acc = some (q ++ acc) ∧
        q ≠ [] ∧ q.head? = some src ∧ q.getLast? = some v ∧
        ListCost adj q c ∧ (c : EDist) ≤ s.dist v ∧
        List.Pairwise (fun a b => s.dist a < s.dist b) q ∧
        ∀ x ∈ q, s.dist x ≤ s.dist v := by
  intro fuel
  induction fuel with
  | zero => intro v acc _ h; omega
  | succ fuel ih =>
    intro v acc hv hrank
    have hvne : (v : ℤ) ≠ -1 := by omega
    have hstep : getPathWalk s.prev (fuel + 1) (v : ℤ) acc =
        getPathWalk s.prev fuel (s.prev v) (v :: acc) := by
      rw [getPathWalk, if_neg hvne]
      norm_num
    by_cases hp : s.prev v = -1
    · have hvsrc : v = src := by
        rcases hinv.fin_prev v hv with h | h
        · exact h
        · exact absurd hp h
      have hfuel1 : 1 ≤ fuel := by omega
      obtain ⟨f, rfl⟩ : ∃ f, fuel = f + 1 := ⟨fuel - 1, by omega⟩
      refine ⟨[v], 0, ?_, by simp, by simp [hvsrc], by simp, ListCost.single v,
        by simpa using hinv.nonneg v, by simp, by simp⟩
      rw [hstep, hp, getPathWalk, if_pos rfl]
      simp
    · obtain ⟨u, w, hpu, hedge, hw, hle, _⟩ := hinv.prev_edge v hp
      have hufin : s.dist u ≠ ⊤ := by
        intro hEq
        rw [hEq, top_add] at hle
        exact hv (top_le_iff.mp hle)
      have hult : s.dist u < s.dist v :=
        lt_of_lt_of_le (edist_lt_add _ hufin w hw) hle
      have hun : u < n := hinv.fin_node u hufin
      have hvn : v < n := hinv.fin_node v hv
      have hrank2 : rankOf n s.dist u + 2 ≤ fuel := by
        have := rankOf_lt hun hult
        omega
      obtain ⟨q', c', hq'eq, hq'ne, hq'head, hq'last, hq'cost, hq'le, hq'pw,
        hq'all⟩ := ih u (v :: acc) hufin hrank2
      refine ⟨q' ++ [v], c' + w, ?_, by simp, ?_, ?_, ?_, ?_, ?_, ?_⟩
      · rw [hstep, hpu, hq'eq, List.append_assoc, List.singleton_append]
      · cases q' with
        | nil => exact absurd rfl hq'ne
        | cons x rest => simpa using hq'head
      · rw [List.getLast?_concat]
      · exact listCost_append hq'cost hq'last hedge
      · calc ((c' + w : ℚ) : EDist) = (c' : EDist) + (w : EDist) := by push_cast; rfl
          _ ≤ s.dist u + (w : EDist) := add_le_add_right hq'le _
          _ ≤ s.dist v := hle
      · rw [List.pairwise_append]
        refine ⟨hq'pw, by simp, ?_⟩
        intro a ha b hb
        have hb' : b = v := by simpa using hb
        rw [hb']
        exact lt_of_le_of_lt (by
          calc s.dist a ≤ s.dist u := hq'all a ha) hult
      · intro x hx
        rcases List.mem_append.mp hx with h | h
        · exact le_trans (hq'all x h) (le_of_lt hult)
        · have : x = v := by simpa using h
          rw [this]

/-! ## From loaded links to adjacency hypotheses -/

theorem numNodesOf_foldl (links : List LinkParam) :
    ∀ a : ℕ,
      a ≤ links.foldl (fun n l => max n (max l.srcId l.dstId + 1)) a ∧
      ∀ l ∈ links, max l.srcId l.dstId + 1 ≤
        links.foldl (fun n l => max n (max l.srcId l.dstId + 1)) a := by
  induction links with
  | nil => intro a; exact ⟨le_refl _, by simp⟩
  | cons l rest ih =>
    intro a
    rw [List.foldl_cons]
    obtain ⟨h1, h2⟩ := ih (max a (max l.srcId l.dstId + 1))
    refine ⟨le_trans (le_max_left _ _) h1, ?_⟩
    intro x hx
    rcases List.mem_cons.mp hx with h | h
    · rw [h]
      exact le_trans (le_max_right _ _) h1
    · exact h2 x h

theorem numNodesOf_bound {links : List LinkParam} {l : LinkParam}
    (hl : l ∈ links) :
    l.srcId < numNodesOf links ∧ l.dstId < numNodesOf links := by
  have h := (numNodesOf_foldl links 0).2 l hl
  unfold numNodesOf
  omega

theorem buildAdjList_mem (links : List LinkParam) (u : ℕ) (vw : ℕ × ℚ) :
    vw ∈ buildAdjList links u ↔
      ∃ l ∈ links, (l.srcId = u ∧ vw = (l.dstId, l.delayMs)) ∨
        (l.dstId = u ∧ vw = (l.srcId, l.delayMs)) := by
  have step : ∀ (acc : List (ℕ × ℚ)) (l : LinkParam),
      (vw ∈ (let acc1 := if l.srcId = u then acc ++ [(l.dstId, l.delayMs)]
               else acc
             if l.dstId = u then acc1 ++ [(l.srcId, l.delayMs)] else acc1)) ↔
        vw ∈ acc ∨ (l.srcId = u ∧ vw = (l.dstId, l.delayMs)) ∨
          (l.dstId = u ∧ vw = (l.srcId, l.delayMs)) := by
    intro acc l
    by_cases h1 : l.srcId = u <;> by_cases h2 : l.dstId = u <;>
      simp [h1, h2, or_assoc] <;> tauto
  have haux : ∀ (ls : List LinkParam) (acc : List (ℕ × ℚ)),
      (vw ∈ ls.foldl (fun acc l =>
          let acc1 := if l.srcId = u then acc ++ [(l.dstId, l.delayMs)]
            else acc
          if l.dstId = u then acc1 ++ [(l.srcId, l.delayMs)] else acc1) acc) ↔
        vw ∈ acc ∨ ∃ l ∈ ls, (l.srcId = u ∧ vw = (l.dstId, l.delayMs)) ∨
          (l.dstId = u ∧ vw = (l.srcId, l.delayMs)) := by
    intro ls
    induction ls with
    | nil => intro acc; simp
    | cons l rest ih =>
      intro acc
      rw [List.foldl_cons, ih, step acc l]
      constructor
      · rintro ((h | h | h) | ⟨x, hx, hd⟩)
        · exact Or.inl h
        · exact Or.inr ⟨l, List.mem_cons_self _ _, Or.inl h⟩
        · exact Or.inr ⟨l, List.mem_cons_self _ _, Or.inr h⟩
        · exact Or.inr ⟨x, List.mem_cons_of_mem _ hx, hd⟩
      · rintro (h | ⟨x, hx, hd⟩)
        · exact Or.inl (Or.inl h)
        · rcases List.mem_cons.mp hx with h | h
          · subst h
            rcases hd with h | h
            · exact Or.inl (Or.inr (Or.inl h))
            · exact Or.inl (Or.inr (Or.inr h))
          · exact Or.inr ⟨x, h, hd⟩
  rw [buildAdjList, haux]
  simp

theorem buildAdjList_ok (links : List LinkParam)
    (hpos : ∀ l ∈ links, 0 < l.delayMs) :
    AdjOK (buildAdjList links) (numNodesOf links) := by
  intro u vw hm
  rw [buildAdjList_mem] at hm
  obtain ⟨l, hl, h⟩ := hm
  rcases h with ⟨-, h2⟩ | ⟨-, h2⟩ <;> rw [h2]
  · exact ⟨(numNodesOf_bound hl).2, hpos l hl⟩
  · exact ⟨(numNodesOf_bound hl).1, hpos l hl⟩

theorem buildAdjList_isLinkEdge {links : List LinkParam} {u : ℕ}
    {vw : ℕ × ℚ} (hm : vw ∈ buildAdjList links u) : IsLinkEdge links u vw.1 := by
  rw [buildAdjList_mem] at hm
  obtain ⟨l, hl, h⟩ := hm
  rcases h with ⟨h1, h2⟩ | ⟨h1, h2⟩
  · exact ⟨l, hl, Or.inl ⟨h1, by rw [h2]⟩⟩
  · exact ⟨l, hl, Or.inr ⟨by rw [h2], h1⟩⟩

theorem mem_enumFrom_of_mem {α : Type} :
    ∀ (l : List α) (x : α), x ∈ l → ∀ k : ℕ, ∃ i, (i, x) ∈ l.enumFrom k := by
  intro l
  induction l with
  | nil => intro x hx; simp at hx
  | cons a rest ih =>
    intro x hx k
    rcases List.mem_cons.mp hx with h | h
    · exact ⟨k, by rw [h]; simp [List.enumFrom]⟩
    · obtain ⟨i, hi⟩ := ih x h (k + 1)
      exact ⟨i, by simp [List.enumFrom]; right; exact hi⟩

theorem buildLinkInterface_some (ifVals : ℕ → (ℕ × Addr) × (ℕ × Addr))
    (links : List LinkParam) (a b : ℕ) (hedge : IsLinkEdge links a b) :
    buildLinkInterface ifVals links (a, b) ≠ none := by
  have haux : ∀ (pairs : List (ℕ × LinkParam)) (m : ℕ × ℕ → Option (ℕ × Addr)),
      (m (a, b) ≠ none ∨ ∃ il ∈ pairs,
        ((a, b) = (il.2.srcId, il.2.dstId) ∨ (a, b) = (il.2.dstId, il.2.srcId))) →
      pairs.foldl (fun m il =>
        Function.update
          (Function.update m (il.2.srcId, il.2.dstId) (some (ifVals il.1).1))
          (il.2.dstId, il.2.srcId) (some (ifVals il.1).2)) m (a, b) ≠ none := by
    intro pairs
    induction pairs with
    | nil =>
      intro m hm
      rcases hm with h | h
      · exact h
      · simp at h
    | cons il rest ih =>
      intro m hm
      rw [List.foldl_cons]
      apply ih
      by_cases hk2 : (a, b) = (il.2.dstId, il.2.srcId)
      · left
        rw [hk2, Function.update_same]
        simp
      · by_cases hk1 : (a, b) = (il.2.srcId, il.2.dstId)
        · left
          rw [Function.update_noteq hk2, hk1, Function.update_same]
          simp
        · rcases hm with h | ⟨x, hx, hd⟩
          · left
            rw [Function.update_noteq hk2, Function.update_noteq hk1]
            exact h
          · rcases List.mem_cons.mp hx with h | h
            · exact absurd (h ▸ hd) (by
                rintro (h1 | h2)
                · exact hk1 h1
                · exact hk2 h2)
            · exact Or.inr ⟨x, h, hd⟩
  obtain ⟨l, hl, hcase⟩ := hedge
  obtain ⟨i, hi⟩ := mem_enumFrom_of_mem links l hl 0
  apply haux
  right
  refine ⟨(i, l), ?_, ?_⟩
  · rw [List.enum]
    exact hi
  · rcases hcase with ⟨h1, h2⟩ | ⟨h1, h2⟩
    · left; rw [h1, h2]
    · right; rw [h1, h2]

/-! ## C3: per-hop route installation -/

/-- Hops never touch table entries whose key is not
`(first of a consecutive pair, destAddr)`. -/
theorem installHops_frame (linkIf : ℕ × ℕ → Option (ℕ × Addr)) (destAddr : Addr) :
    ∀ (path : List ℕ) (t : RTable) (ws : List (ℕ × ℕ)) (k : ℕ × Addr),
      (∀ u v, (u, v) ∈ path.zip path.tail → k ≠ (u, destAddr)) →
      (installHops linkIf destAddr path (t, ws)).1 k = t k := by
  intro path
  induction path with
  | nil => intro t ws k _; rfl
  | cons x xs ih =>
    cases xs with
    | nil => intro t ws k _; rfl
    | cons y rest =>
      intro t ws k h
      cases hxy : linkIf (x, y) with
      | none =>
        simp only [installHops, hxy]
        exact ih t (ws ++ [(x, y)]) k fun u v huv => h u v (List.mem_cons_of_mem _ huv)
      | some iv =>
        simp only [installHops, hxy]
        rw [ih _ ws k fun u v huv => h u v (List.mem_cons_of_mem _ huv)]
        have hk : k ≠ (x, destAddr) := h x y (List.mem_cons_self _ _)
        simp [AddHostRouteTo, hk]

/-- The warnings produced by the hop loop are exactly the consecutive pairs
whose interface lookup fails, appended to the accumulator. -/
theorem installHops_warnings (linkIf : ℕ × ℕ → Option (ℕ × Addr)) (destAddr : Addr) :
    ∀ (path : List ℕ) (t : RTable) (ws : List (ℕ × ℕ)),
      (installHops linkIf destAddr path (t, ws)).2 =
        ws ++ (path.zip path.tail).filter (fun ab => (linkIf ab).isNone) := by
  intro path
  induction path with
  | nil => intro t ws; simp [installHops]
  | cons x xs ih =>
    cases xs with
    | nil => intro t ws; simp [installHops]
    | cons y rest =>
      intro t ws
      cases hxy : linkIf (x, y) with
      | none =>
        simp only [installHops, hxy]
        rw [ih]
        simp [hxy]
      | some iv =>
        simp only [installHops, hxy]
        rw [ih]
        simp [hxy]

/-- Table contents after the hop loop, per consecutive pair, for paths
without repeated nodes. -/
theorem installHops_table (linkIf : ℕ × ℕ → Option (ℕ × Addr)) (destAddr : Addr) :
    ∀ (path : List ℕ) (t : RTable) (ws : List (ℕ × ℕ)), path.Nodup →
      ∀ a b, (a, b) ∈ path.zip path.tail →
        (∀ iv, linkIf (a, b) = some iv →
          (installHops linkIf destAddr path (t, ws)).1 (a, destAddr) =
            some (iv.2, iv.1)) ∧
        (linkIf (a, b) = none →
          (installHops linkIf destAddr path (t, ws)).1 (a, destAddr) =
            t (a, destAddr)) := by
  intro path
  induction path with
  | nil => intro t ws _ a b hab; simp at hab
  | cons x xs ih =>
    cases xs with
    | nil => intro t ws _ a b hab; simp at hab
    | cons y rest =>
      intro t ws hnd a b hab
      have hx_not : x ∉ y :: rest := (List.nodup_cons.mp hnd).1
      have hnd' : (y :: rest).Nodup := (List.nodup_cons.mp hnd).2
      rcases List.mem_cons.mp hab with hhead | htail
      · -- (a, b) is the first pair (x, y)
        have hax : a = x := congrArg Prod.fst hhead
        have hby : b = y := congrArg Prod.snd hhead
        subst hax; subst hby
        have hframe : ∀ (t0 : RTable) (ws0 : List (ℕ × ℕ)),
            (installHops linkIf destAddr (b :: rest) (t0, ws0)).1 (a, destAddr) =
              t0 (a, destAddr) := by
          intro t0 ws0
          refine installHops_frame linkIf destAddr (b :: rest) t0 ws0 _ ?_
          intro u v huv hEq
          have hu : u ∈ b :: rest := (List.of_mem_zip huv).1
          have : a = u := congrArg Prod.fst hEq
          exact hx_not (this ▸ hu)
        constructor
        · intro iv hiv
          simp only [installHops, hiv]
          rw [hframe]
          simp [AddHostRouteTo]
        · intro hiv
          simp only [installHops, hiv]
          exact hframe t (ws ++ [(a, b)])
      · -- (a, b) is a pair of the tail
        have ha_mem : a ∈ y :: rest := (List.of_mem_zip htail).1
        have hax : a ≠ x := fun hEq => hx_not (hEq ▸ ha_mem)
        cases hxy : linkIf (x, y) with
        | none =>
          simp only [installHops, hxy]
          exact ih t (ws ++ [(x, y)]) hnd' a b htail
        | some iv =>
          simp only [installHops, hxy]
          constructor
          · intro iv' hiv'
            exact (ih _ ws hnd' a b htail).1 iv' hiv'
          · intro hiv'
            rw [(ih _ ws hnd' a b htail).2 hiv']
            simp [AddHostRouteTo, hax]

/-- C3: for a computed (repetition-free, length ≥ 2) path and a destination
address, the installer writes, for every consecutive pair `(current, next)`
with a successful interface lookup, the host route at `current` sending the
destination out the looked-up interface toward the looked-up next hop; a
failed lookup only skips that hop (recording the warning) and leaves that
node's entry unchanged, while all other hops are still installed. -/
theorem install_path_routes (linkIf : ℕ × ℕ → Option (ℕ × Addr))
    (destAddr : Addr) (path : List ℕ) (t : RTable)
    (hlen : 2 ≤ path.length) (hnd : path.Nodup) :
    ∀ a b, (a, b) ∈ path.zip path.tail →
      (∀ iv, linkIf (a, b) = some iv →
        (InstallPathRoutes linkIf destAddr path t).1 (a, destAddr) =
          some (iv.2, iv.1)) ∧
      (linkIf (a, b) = none →
        (a, b) ∈ (InstallPathRoutes linkIf destAddr path t).2 ∧
        (InstallPathRoutes linkIf destAddr path t).1 (a, destAddr) =
          t (a, destAddr)) := by
  intro a b hab
  constructor
  · exact (installHops_table linkIf destAddr path t [] hnd a b hab).1
  · intro hnone
    refine ⟨?_, (installHops_table linkIf destAddr path t [] hnd a b hab).2 hnone⟩
    rw [InstallPathRoutes, installHops_warnings]
    simp only [List.nil_append, List.mem_filter]
    exact ⟨hab, by simp [hnone]⟩

/-- Witness for C3: on the path `[0, 1, 2, 3]` with no interface entry for
the hop `(1, 2)`, that pair is warned about and node 1's entry stays
untouched. -/
theorem install_path_routes_witness :
    (2 ≤ ([0, 1, 2, 3] : List ℕ).length ∧ ([0, 1, 2, 3] : List ℕ).Nodup ∧
      ((1, 2) ∈ ([0, 1, 2, 3] : List ℕ).zip ([0, 1, 2, 3] : List ℕ).tail) ∧
      linkIfEx (1, 2) = none) ∧
    ((1, 2) ∈ (InstallPathRoutes linkIfEx 9 [0, 1, 2, 3] (fun _ => none)).2 ∧
      (InstallPathRoutes linkIfEx 9 [0, 1, 2, 3] (fun _ => none)).1 (1, 9) =
        none) :=
  ⟨⟨by decide, by decide, by decide, by decide⟩,
    (install_path_routes linkIfEx 9 [0, 1, 2, 3] (fun _ => none) (by decide)
      (by decide) 1 2 (by decide)).2 (by decide)⟩

/-! ## C4: demand skipping -/

/-- C4: a demand whose destination has no recorded address, or whose derived
path has fewer than two nodes, is skipped entirely — the scheduler state
(route rows, tables, warnings, endpoints, port counter) is left exactly as
it was — and removing such a demand from the input changes nothing for the
other demands, which are processed in input order. -/
theorem demand_skipped (env : SimEnv) (st : SchedState)
    (ds1 ds2 : List TrafficDemand) (d : TrafficDemand)
    (hskip : env.nodeFirstIp d.dstId = none ∨
      ∀ p, GetPath (numNodesOf env.links + 1) d.srcId d.dstId
          (Dijkstra d.srcId (numNodesOf env.links) (buildAdjList env.links)) =
            some p → p.length < 2) :
    (∀ st' : SchedState, processDemand env st' d = st') ∧
    processDemands env st (ds1 ++ d :: ds2) =
      processDemands env st (ds1 ++ ds2) := by
  have hskip1 : ∀ st' : SchedState, processDemand env st' d = st' := by
    intro st'
    rcases hskip with h | h
    · simp [processDemand, h]
    · cases hdst : env.nodeFirstIp d.dstId with
      | none => simp [processDemand, hdst]
      | some a =>
        cases hp : GetPath (numNodesOf env.links + 1) d.srcId d.dstId
            (Dijkstra d.srcId (numNodesOf env.links)
              (buildAdjList env.links)) with
        | none => simp [processDemand, hdst, hp]
        | some p =>
          have hlt : p = [] ∨ p.length < 2 := Or.inr (h p hp)
          simp [processDemand, hdst, hp, hlt]
  refine ⟨hskip1, ?_⟩
  simp only [processDemands, List.foldl_append, List.foldl_cons]
  rw [hskip1]

/-- Witness for C4: in an environment with no recorded addresses, a demand
is skipped and dropping it from the demand list leaves the run unchanged. -/
theorem demand_skipped_witness :
    (envEx.nodeFirstIp demandEx.dstId = none ∨
      ∀ p, GetPath (numNodesOf envEx.links + 1) demandEx.srcId demandEx.dstId
          (Dijkstra demandEx.srcId (numNodesOf envEx.links)
            (buildAdjList envEx.links)) = some p → p.length < 2) ∧
    (∀ st' : SchedState, processDemand envEx st' demandEx = st') ∧
    processDemands envEx stEx ([] ++ demandEx :: []) =
      processDemands envEx stEx ([] ++ []) :=
  ⟨Or.inl rfl,
    (demand_skipped envEx stEx [] [] demandEx (Or.inl rfl)).1,
    (demand_skipped envEx stEx [] [] demandEx (Or.inl rfl)).2⟩

/-! ## C9: idempotent host-route installation -/

/-- C9: installing the same `(node, destination)` host route twice with
identical next-hop and interface parameters leaves exactly the forwarding
state of installing it once (spec-modelled overwrite semantics of
`AddHostRouteTo`, §4.3). -/
theorem addHostRouteTo_idempotent (t : RTable) (node : ℕ) (dest nextHop : Addr)
    (ifIndex : ℕ) :
    AddHostRouteTo (AddHostRouteTo t node dest nextHop ifIndex) node dest
      nextHop ifIndex = AddHostRouteTo t node dest nextHop ifIndex := by
  funext k
  simp only [AddHostRouteTo]
  split <;> rfl

/-! ## C1: Dijkstra computes shortest paths -/

/-- C1: over the loaded topology, `Dijkstra` returns, for each valid node,
the minimum delay-sum over all paths from the source: `dist[src] = 0`; every
path from the source to `v` costs at least `dist[v]`; a finite `dist[v]` is
realised exactly by some (repetition-free) path; unreachable nodes keep
`dist = +infinity` and `prev = -1`; and along any computed (`GetPath`) path
the final distance equals the start distance plus the path's edge-weight sum
(no shorter alternative exists, by the minimality part). -/
theorem dijkstra_shortest_paths (links : List LinkParam)
    (hpos : ∀ l ∈ links, 0 < l.delayMs) (src : ℕ)
    (hsrc : src < numNodesOf links) :
    let n := numNodesOf links
    let adj := buildAdjList links
    let D := Dijkstra src n adj
    D.dist src = 0 ∧
    (∀ v, v < n →
      (∀ p c, ListCost adj p c → p.head? = some src → p.getLast? = some v →
        D.dist v ≤ (c : EDist)) ∧
      (D.dist v ≠ ⊤ →
        ∃ p c, ListCost adj p c ∧ p.head? = some src ∧
          p.getLast? = some v ∧ p.Nodup ∧ D.dist v = (c : EDist)) ∧
      ((∀ p c, ListCost adj p c → p.head? = some src →
          p.getLast? = some v → False) →
        D.dist v = ⊤ ∧ D.prev v = -1)) ∧
    (∀ dst, dst < n →
      ∀ p, GetPath (n + 1) src dst D = some p → p ≠ [] →
        ∃ c, ListCost adj p c ∧ p.head? = some src ∧
          p.getLast? = some dst ∧
          D.dist dst = D.dist src + (c : EDist)) := by
  intro n adj D
  have hadj : AdjOK adj n := buildAdjList_ok links hpos
  obtain ⟨hinv, hempty⟩ := dijkstraLoop_final hadj hsrc
  have hclosed : ∀ u, ∀ vw ∈ adj u,
      (dijkstraLoop adj (2 + degreeSum adj n) (dijkstraInit src)).dist vw.1 ≤
        (dijkstraLoop adj (2 + degreeSum adj n) (dijkstraInit src)).dist u +
          (vw.2 : EDist) := by
    intro u
    rcases hinv.open_closed u with ⟨q, hq, -, -⟩ | h
    · rw [hempty] at hq
      simp at hq
    · exact h
  have hmin : ∀ (v : ℕ) (p : List ℕ) (c : ℚ), ListCost adj p c →
      p.head? = some src → p.getLast? = some v → D.dist v ≤ (c : EDist) := by
    intro v p c hpc hh hl
    have h := allClosed_dist_le hclosed hpc hh hl
    rw [hinv.src_zero, zero_add] at h
    exact h
  have hwalk : ∀ v : ℕ, D.dist v ≠ ⊤ →
      ∃ q c, getPathWalk
          (dijkstraLoop adj (2 + degreeSum adj n) (dijkstraInit src)).prev
          (n + 1) (v : ℤ) [] = some (q ++ []) ∧
        q ≠ [] ∧ q.head? = some src ∧ q.getLast? = some v ∧
        ListCost adj q c ∧ (c : EDist) ≤ D.dist v ∧
        List.Pairwise (fun a b => D.dist a < D.dist b) q ∧
        ∀ x ∈ q, D.dist x ≤ D.dist v := by
    intro v hv
    have hvn : v < n := hinv.fin_node v hv
    refine getPathWalk_spec _ hinv (n + 1) v [] hv ?_
    have := rankOf_lt_n
      (dijkstraLoop adj (2 + degreeSum adj n) (dijkstraInit src)).dist hvn
    omega
  refine ⟨hinv.src_zero, ?_, ?_⟩
  · intro v _
    refine ⟨hmin v, ?_, ?_⟩
    · intro hv
      obtain ⟨q, c, -, -, hqh, hql, hqcost, hqle, hqpw, -⟩ := hwalk v hv
      refine ⟨q, c, hqcost, hqh, hql, ?_, le_antisymm (hmin v q c hqcost hqh hql) hqle⟩
      exact hqpw.imp fun {a b} hab hEq => absurd (hEq ▸ hab) (lt_irrefl _)
    · intro hnone
      have hv : D.dist v = ⊤ := by
        by_contra hfin
        obtain ⟨q, c, -, -, hqh, hql, hqcost, -, -, -⟩ := hwalk v hfin
        exact hnone q c hqcost hqh hql
      refine ⟨hv, ?_⟩
      by_contra hprev
      obtain ⟨-, -, -, -, -, -, hvfin⟩ := hinv.prev_edge v hprev
      exact hvfin hv
  · intro dst hdst p hGet hpne
    by_cases hfin : D.dist dst = ⊤
    · rw [GetPath, if_pos hfin] at hGet
      cases hGet
      exact absurd rfl hpne
    · rw [GetPath, if_neg hfin] at hGet
      obtain ⟨q, c, hqeq, -, hqh, hql, hqcost, hqle, -, -⟩ := hwalk dst hfin
      have hpq : p = q := by
        have h2 : some (q ++ []) = some p := hqeq ▸ hGet
        simpa using h2.symm
      subst hpq
      refine ⟨c, hqcost, hqh, hql, ?_⟩
      have hsrc0 : D.dist src = 0 := hinv.src_zero
      rw [hsrc0, zero_add]
      exact le_antisymm (hmin dst p c hqcost hqh hql) hqle

/-- Witness for C1 on the two-link line `A - B - C` from source `A`. -/
theorem dijkstra_shortest_paths_witness :
    (∀ l ∈ linksEx, 0 < l.delayMs) ∧ 0 < numNodesOf linksEx ∧
      (Dijkstra 0 (numNodesOf linksEx) (buildAdjList linksEx)).dist 0 = 0 :=
  ⟨by decide, by decide,
    (dijkstra_shortest_paths linksEx (by decide) 0 (by decide)).1⟩

/-! ## C2: GetPath endpoints and edges -/

/-- Core property of `GetPath` over a `Dijkstra` result (shared by the
claims about path endpoints and about interface lookups). -/
theorem getPath_core (links : List LinkParam)
    (hpos : ∀ l ∈ links, 0 < l.delayMs) (src dst : ℕ)
    (hsrc : src < numNodesOf links) :
    let n := numNodesOf links
    let D := Dijkstra src n (buildAdjList links)
    ∃ p, GetPath (n + 1) src dst D = some p ∧
      (p = [] ↔ D.dist dst = ⊤) ∧
      (D.dist dst ≠ ⊤ →
        p.head? = some src ∧ p.getLast? = some dst ∧
        List.Chain' (IsLinkEdge links) p) := by
  intro n D
  have hadj : AdjOK (buildAdjList links) n := buildAdjList_ok links hpos
  obtain ⟨hinv, hempty⟩ := dijkstraLoop_final hadj hsrc
  by_cases hfin : D.dist dst = ⊤
  · refine ⟨[], ?_, by simp [hfin], fun h => absurd hfin h⟩
    rw [GetPath, if_pos hfin]
  · have hdst : dst < n := hinv.fin_node dst hfin
    obtain ⟨q, c, hqeq, hqne, hqh, hql, hqcost, -, -, -⟩ :=
      getPathWalk_spec _ hinv (n + 1) dst [] hfin (by
        have := rankOf_lt_n
          (dijkstraLoop (buildAdjList links) (2 + degreeSum (buildAdjList links) n)
            (dijkstraInit src)).dist hdst
        omega)
    refine ⟨q, ?_, ?_, ?_⟩
    · rw [GetPath, if_neg hfin]
      simpa using hqeq
    · exact ⟨fun h => absurd h hqne, fun h => absurd h hfin⟩
    · intro _
      refine ⟨hqh, hql, ?_⟩
      refine (listCost_chain hqcost).imp ?_
      intro a b hab
      obtain ⟨w, hw⟩ := hab
      exact buildAdjList_isLinkEdge hw

/-- C2: for any source and destination, `GetPath` returns the empty sequence
iff the computed distance to the destination is infinite; otherwise the
returned sequence starts at the source, ends at the destination, and every
consecutive pair of nodes is an edge of the loaded topology. -/
theorem getPath_endpoints (links : List LinkParam)
    (hpos : ∀ l ∈ links, 0 < l.delayMs) (src dst : ℕ)
    (hsrc : src < numNodesOf links) :
    let n := numNodesOf links
    let D := Dijkstra src n (buildAdjList links)
    ∃ p, GetPath (n + 1) src dst D = some p ∧
      (p = [] ↔ D.dist dst = ⊤) ∧
      (D.dist dst ≠ ⊤ →
        p.head? = some src ∧ p.getLast? = some dst ∧
        List.Chain' (IsLinkEdge links) p) :=
  getPath_core links hpos src dst hsrc

/-- Witness for C2 on the line `A - B - C` from `A` to `C`. -/
theorem getPath_endpoints_witness :
    (∀ l ∈ linksEx, 0 < l.delayMs) ∧ 0 < numNodesOf linksEx ∧
      (let n := numNodesOf linksEx
       let D := Dijkstra 0 n (buildAdjList linksEx)
       ∃ p, GetPath (n + 1) 0 2 D = some p ∧
         (p = [] ↔ D.dist 2 = ⊤) ∧
         (D.dist 2 ≠ ⊤ →
           p.head? = some 0 ∧ p.getLast? = some 2 ∧
           List.Chain' (IsLinkEdge linksEx) p)) :=
  ⟨by decide, by decide, getPath_endpoints linksEx (by decide) 0 2 (by decide)⟩

/-! ## C10: interface lookups along computed paths never fail -/

/-- C10: the interface map contains both directed pairs of every loaded
link; consequently, on any path returned by `GetPath` over the adjacency
list built from the same links, the interface lookup succeeds for every
consecutive pair and route installation emits no lookup-failure warnings
(the warning branch is unreachable). -/
theorem linkInterface_lookup_total (links : List LinkParam)
    (ifVals : ℕ → (ℕ × Addr) × (ℕ × Addr))
    (hpos : ∀ l ∈ links, 0 < l.delayMs) (src dst : ℕ)
    (hsrc : src < numNodesOf links) :
    let n := numNodesOf links
    let D := Dijkstra src n (buildAdjList links)
    (∀ l ∈ links,
      buildLinkInterface ifVals links (l.srcId, l.dstId) ≠ none ∧
      buildLinkInterface ifVals links (l.dstId, l.srcId) ≠ none) ∧
    ∀ p, GetPath (n + 1) src dst D = some p →
      (∀ ab ∈ p.zip p.tail, buildLinkInterface ifVals links ab ≠ none) ∧
      ∀ destAddr t,
        (InstallPathRoutes (buildLinkInterface ifVals links) destAddr p t).2 =
          [] := by
  intro n D
  refine ⟨?_, ?_⟩
  · intro l hl
    exact ⟨buildLinkInterface_some ifVals links _ _ ⟨l, hl, Or.inl ⟨rfl, rfl⟩⟩,
      buildLinkInterface_some ifVals links _ _ ⟨l, hl, Or.inr ⟨rfl, rfl⟩⟩⟩
  · intro p hGet
    have hedges : ∀ ab ∈ p.zip p.tail, IsLinkEdge links ab.1 ab.2 := by
      obtain ⟨p', hp', hiff, hrest⟩ :=
        getPath_core links hpos src dst hsrc
      have hpp : p = p' := by
        rw [hGet] at hp'
        exact Option.some_injective _ hp'
      subst hpp
      by_cases hfin : D.dist dst = ⊤
      · have : p = [] := hiff.mpr hfin
        subst this
        intro ab hab
        simp at hab
      · obtain ⟨-, -, hchain⟩ := hrest hfin
        exact chain'_pairs hchain
    refine ⟨fun ab hab => buildLinkInterface_some ifVals links _ _ (hedges ab hab), ?_⟩
    intro destAddr t
    rw [InstallPathRoutes, installHops_warnings]
    simp only [List.nil_append]
    rw [List.filter_eq_nil_iff]
    intro ab hab
    rw [Option.isNone_iff_eq_none]
    exact buildLinkInterface_some ifVals links _ _ (hedges ab hab)

/-- Witness for C10 on the line `A - B - C` from `A` to `C`. -/
theorem linkInterface_lookup_total_witness :
    (∀ l ∈ linksEx, 0 < l.delayMs) ∧ 0 < numNodesOf linksEx ∧
      (let n := numNodesOf linksEx
       let D := Dijkstra 0 n (buildAdjList linksEx)
       (∀ l ∈ linksEx,
         buildLinkInterface (fun _ => ((1, 1), (1, 2))) linksEx
           (l.srcId, l.dstId) ≠ none ∧
         buildLinkInterface (fun _ => ((1, 1), (1, 2))) linksEx
           (l.dstId, l.srcId) ≠ none) ∧
       ∀ p, GetPath (n + 1) 0 2 D = some p →
         (∀ ab ∈ p.zip p.tail,
           buildLinkInterface (fun _ => ((1, 1), (1, 2))) linksEx ab ≠ none) ∧
         ∀ destAddr t,
           (InstallPathRoutes
             (buildLinkInterface (fun _ => ((1, 1), (1, 2))) linksEx)
             destAddr p t).2 = []) :=
  ⟨by decide, by decide,
    linkInterface_lookup_total linksEx (fun _ => ((1, 1), (1, 2)))
      (by decide) 0 2 (by decide)⟩


end StarlinkSim
